import Mathlib

/-!
Verification development for the `simmer-automaton` survival meta-skill
(`skills/simmer-automaton/automaton.py`).

The embedding is shallow: each Python function that the verified claims
depend on is translated into a Lean definition over explicit state values.
Monetary amounts and timestamps are modelled as rationals (`ℚ`), the
real-number semantics of the Python float arithmetic used by the program;
timestamps are measured in days so that `days_elapsed = now - started_at`
matches `(now - started).total_seconds() / 86400`.  Sources of randomness
(`random.sample`, `random.choice`, `random.random`) are modelled as an
explicit oracle, and the external collaborators (trade-history API and the
child processes spawned for each skill) are modelled as inputs of the
cycle: per-source-tag P&L maps and a map from slug to run outcome.
-/

namespace Automaton

/-- Survival tier, the five-valued posture of `compute_tier`. -/
inductive Tier where
  | thriving
  | normal
  | conserving
  | critical
  | dead
deriving DecidableEq, Repr, Inhabited

/-- One entry of `state["skills"]`: the persistent per-skill record created
and maintained by `run_cycle` / `update_bandit`. -/
structure SkillRecord where
  slug : String
  source_tag : String
  entrypoint : String
  total_pnl : ℚ
  times_selected : ℕ
  times_rewarded : ℕ
  last_run : Option ℚ
  enabled : Bool
deriving DecidableEq, Repr, Inhabited

/-- The persisted automaton state (`init_state` / `state.json`).  The
skills mapping is an association list in insertion order, mirroring a
Python dict with unique keys. -/
structure AutomatonState where
  version : ℕ
  started_at : ℚ
  budget_usd : ℚ
  horizon_days : ℚ
  spent_usd : ℚ
  realized_pnl : ℚ
  unrealized_pnl : ℚ
  tier : Tier
  epsilon : ℚ
  cycle_count : ℕ
  tier_history : List (Tier × Tier × ℚ)
  skills : List (String × SkillRecord)
deriving DecidableEq, Repr, Inhabited

/-- Configuration relevant to `run_cycle` (the `CONFIG_SCHEMA` keys plus
the CLI override markers `_budget_override` / `_days_override`). -/
structure Config where
  budget_usd : ℚ
  horizon_days : ℚ
  epsilon : ℚ
  epsilon_decay : ℚ
  min_epsilon : ℚ
  max_concurrent : ℕ
  budget_override : Bool
  days_override : Bool
deriving DecidableEq, Repr, Inhabited

/-- One element of the list returned by `discover_skills`. -/
structure DiscoveredSkill where
  slug : String
  source_tag : String
  entrypoint : String
  dir : String
deriving DecidableEq, Repr, Inhabited

/-- Fresh state created by `init_state(budget, days)`.  `now` is the
creation timestamp (`datetime.now(timezone.utc)`), `eps` is
`_config["epsilon"]`. -/
def init_state (budget days eps now : ℚ) : AutomatonState :=
  { version := 1
    started_at := now
    budget_usd := budget
    horizon_days := days
    spent_usd := 0
    realized_pnl := 0
    unrealized_pnl := 0
    tier := Tier.normal
    epsilon := eps
    cycle_count := 0
    tier_history := []
    skills := [] }

/-- Survival tier from budget state, translated from `compute_tier`.
`now` is the current timestamp in days. -/
def compute_tier (state : AutomatonState) (now : ℚ) : Tier :=
  let budget := state.budget_usd
  if budget ≤ 0 then Tier.dead
  else
    let spent := state.spent_usd
    let realized := state.realized_pnl
    let budget_remaining_pct := (budget - spent + realized) / budget
    let days_elapsed := now - state.started_at
    let horizon := state.horizon_days
    if budget_remaining_pct ≤ 0 ∨ days_elapsed ≥ horizon then Tier.dead
    else if budget_remaining_pct < 10 / 100 then Tier.critical
    else if budget_remaining_pct < 30 / 100 then Tier.conserving
    else if realized > 0 ∧ budget_remaining_pct > 70 / 100 then Tier.thriving
    else Tier.normal

/-- Remaining budget fraction used by the tier rules, as named in the
specification: `(budgetUsd − spentUsd + realizedPnl) / budgetUsd`. -/
def remainingFraction (state : AutomatonState) : ℚ :=
  (state.budget_usd - state.spent_usd + state.realized_pnl) / state.budget_usd

/-- Days elapsed since `started_at`, as named in the specification. -/
def daysElapsed (state : AutomatonState) (now : ℚ) : ℚ :=
  now - state.started_at

/-- Max skills allowed per cycle for a tier (`tier_max_skills`). -/
def tier_max_skills (tier : Tier) (max_concurrent : ℕ) : ℕ :=
  match tier with
  | Tier.thriving => max_concurrent
  | Tier.normal => max_concurrent
  | Tier.conserving => 1
  | Tier.critical => 1
  | Tier.dead => 0

/-- Effective exploration rate for a tier (`tier_effective_epsilon`). -/
def tier_effective_epsilon (tier : Tier) (epsilon : ℚ) : ℚ :=
  match tier with
  | Tier.thriving => epsilon
  | Tier.normal => epsilon
  | Tier.conserving => epsilon * (5 / 10)
  | Tier.critical => 0
  | Tier.dead => 0

/-- Dictionary access `enabled[s]` on the association list (total, with a
default record that is never reached when `s` is a key). -/
def lookupRec (skills : List (String × SkillRecord)) (s : String) : SkillRecord :=
  (List.lookup s skills).getD default

/-- Average reward for a skill (`_avg_reward`).  `none` stands for the
Python `float("inf")` returned for an unplayed skill. -/
def avg_reward (sk : SkillRecord) : Option ℚ :=
  if sk.times_selected = 0 then none
  else some (sk.total_pnl / (sk.times_selected : ℚ))

/-- Strict greater-than on average rewards, with `none` playing the role
of `float("inf")` (`inf > x` for finite `x`, `inf > inf` is false). -/
def avgGt (a b : Option ℚ) : Bool :=
  match a, b with
  | none, none => false
  | none, some _ => true
  | some _, none => false
  | some x, some y => decide (y < x)

/-- Python `max(available, key=f)`: the first element attaining the
maximal key.  The empty case is never reached by the program. -/
def pythonMaxBy (f : String → Option ℚ) : List String → String
  | [] => ""
  | x :: xs => xs.foldl (fun best a => if avgGt (f a) (f best) then a else best) x

/-- Stable insertion of one element into a descending-sorted list: the
element goes after every earlier element whose key is at least as big. -/
def insertDesc (f : String → Option ℚ) (a : String) : List String → List String
  | [] => [a]
  | b :: bs => if avgGt (f a) (f b) then a :: b :: bs else b :: insertDesc f a bs

/-- Python `sorted(slugs, key=f, reverse=True)`: a stable descending sort
by key, modelled as left-to-right stable insertion. -/
def sortDescBy (f : String → Option ℚ) (l : List String) : List String :=
  l.foldl (fun acc a => insertDesc f a acc) []

/-- Oracle for the three sources of randomness used by `select_skills`:
`random.sample(population, k)`, `random.choice(seq)` and the value of the
`i`-th call of `random.random()`. -/
structure RandOracle where
  sample : List String → ℕ → List String
  choice : List String → String
  rand_float : ℕ → ℚ

/-- Specification of `random.sample(l, k)` for `k ≤ len(l)`: `k` results,
pairwise distinct positions (hence distinct values on a duplicate-free
population), all drawn from the population. -/
def SampleSpec (sample : List String → ℕ → List String) : Prop :=
  ∀ (l : List String) (k : ℕ), k ≤ l.length →
    (sample l k).length = k ∧ (l.Nodup → (sample l k).Nodup) ∧
      ∀ x ∈ sample l k, x ∈ l

/-- Specification of `random.choice(l)` for nonempty `l`. -/
def ChoiceSpec (choice : List String → String) : Prop :=
  ∀ l : List String, l ≠ [] → choice l ∈ l

/-- The epsilon-greedy draw loop of `select_skills` (`for _ in range(n)`):
each draw explores with probability epsilon, otherwise exploits the best
average reward; the pick is appended and removed from the candidates. -/
def egDraws (avg : String → Option ℚ) (rand : RandOracle) (epsilon : ℚ) :
    ℕ → ℕ → List String → List String → List String
  | 0, _, _, selected => selected
  | n + 1, i, available, selected =>
    if available = [] then selected
    else
      let pick := if rand.rand_float i < epsilon then rand.choice available
                  else pythonMaxBy avg available
      egDraws avg rand epsilon n (i + 1) (available.erase pick) (selected ++ [pick])

/-- The unplayed-priority block of `select_skills`: sample from the
unplayed slugs, and only if still short of `n` extend with a sample from
the remaining slugs, finally truncating to `n`. -/
def select_from_unplayed (rand : RandOracle) (slugs unplayed : List String)
    (n : ℕ) : List String :=
  let selected := rand.sample unplayed (min n unplayed.length)
  let selected :=
    if selected.length < n then
      let remaining := slugs.filter fun s => ! selected.contains s
      selected ++ rand.sample remaining (min (n - selected.length) remaining.length)
    else selected
  selected.take n

/-- Skill selection (`select_skills`): unplayed-first sampling, pure
exploitation in the critical tier, epsilon-greedy draws otherwise. -/
def select_skills (state : AutomatonState) (n0 : ℕ) (rand : RandOracle) :
    List String :=
  let skills := state.skills
  let enabled := skills.filter fun p => p.2.enabled
  if enabled = [] then []
  else
    let tier := state.tier
    let epsilon := tier_effective_epsilon tier state.epsilon
    let slugs := enabled.map Prod.fst
    let n := min n0 slugs.length
    let unplayed := slugs.filter fun s => (lookupRec enabled s).times_selected == 0
    if unplayed ≠ [] then
      select_from_unplayed rand slugs unplayed n
    else if tier = Tier.critical then
      (sortDescBy (fun s => avg_reward (lookupRec enabled s)) slugs).take n
    else
      egDraws (fun s => avg_reward (lookupRec enabled s)) rand epsilon n 0 slugs []

/-- Result record of one skill execution (`run_skill`). -/
structure RunResult where
  success : Bool
  returncode : Int
  output : String
  stderr : String
deriving DecidableEq, Repr, Inhabited

/-- Outcome of the child process launched by `run_skill`: normal process
completion, expiry of the 120-second wall clock
(`subprocess.TimeoutExpired`), or a launch-level fault (any other
exception, e.g. a missing interpreter). -/
inductive ProcOutcome where
  | exited (returncode : Int) (stdout : String) (stderr : String)
  | timedOut
  | launchFault (msg : String)
deriving DecidableEq, Repr, Inhabited

/-- Python slicing `s[-n:]`: the last `n` characters of a string (the
whole string when it is shorter than `n`). -/
def lastChars (n : ℕ) (s : String) : String :=
  ⟨s.data.drop (s.data.length - n)⟩

/-- Supervised execution of one skill (`run_skill`): success is exactly a
zero exit code, captured output is truncated to the last 2000 characters
of stdout and the last 1000 characters of stderr, a timeout or launch
fault is reported as a failure with return code −1 and a synthesized
message. -/
def run_skill (slug : String) (outcome : ProcOutcome) : RunResult :=
  match outcome with
  | ProcOutcome.exited rc out err =>
    { success := rc == 0
      returncode := rc
      output := if out ≠ "" then lastChars 2000 out else ""
      stderr := if err ≠ "" then lastChars 1000 err else "" }
  | ProcOutcome.timedOut =>
    { success := false
      returncode := -1
      output := ""
      stderr := "Timeout: " ++ slug ++ " exceeded 120s" }
  | ProcOutcome.launchFault msg =>
    { success := false
      returncode := -1
      output := ""
      stderr := msg }

/-- Truthiness of `run_results.get(slug, {}).get("success")`: a missing
entry counts as failure. -/
def resultSuccess (r : Option RunResult) : Bool :=
  match r with
  | none => false
  | some res => res.success

/-- In-place mutation of the record stored under a key of a Python dict,
on the association-list model. -/
def assocSet (k : String) (v : SkillRecord) (l : List (String × SkillRecord)) :
    List (String × SkillRecord) :=
  l.map fun p => if p.1 = k then (k, v) else p

/-- The field updates of `update_bandit` lines 500–504: accumulate the
delta, count the selection, count the reward iff the delta is positive,
stamp the run time. -/
def bump_record (r : SkillRecord) (delta : ℚ) (now : ℚ) : SkillRecord :=
  { r with
    total_pnl := r.total_pnl + delta
    times_selected := r.times_selected + 1
    times_rewarded := r.times_rewarded + (if delta > 0 then 1 else 0)
    last_run := some now }

/-- Update bandit stats for a skill after execution (`update_bandit`);
a slug that is not a key is a no-op. -/
def update_bandit (state : AutomatonState) (slug : String)
    (pnl_before pnl_after : String → ℚ) (now : ℚ) : AutomatonState :=
  match List.lookup slug state.skills with
  | none => state
  | some skill =>
    let delta := pnl_after skill.source_tag - pnl_before skill.source_tag
    { state with skills := assocSet slug (bump_record skill delta now) state.skills }

/-- One pass of the reward loop of `run_cycle` (lines 660–666): skip the
slug unless its run reported success and it is still a known skill. -/
def reward_step (run_results : String → Option RunResult)
    (pnl_before pnl_after : String → ℚ) (now : ℚ)
    (st : AutomatonState) (slug : String) : AutomatonState :=
  if resultSuccess (run_results slug) then
    match List.lookup slug st.skills with
    | none => st
    | some _ => update_bandit st slug pnl_before pnl_after now
  else st

/-- The reward-update loop of `run_cycle` over the selected slugs. -/
def apply_reward_updates (selected : List String)
    (run_results : String → Option RunResult)
    (pnl_before pnl_after : String → ℚ) (now : ℚ)
    (state : AutomatonState) : AutomatonState :=
  selected.foldl (reward_step run_results pnl_before pnl_after now) state

/-- Fresh `SkillRecord` inserted for a newly discovered slug
(`run_cycle` lines 551–560). -/
def fresh_record (sk : DiscoveredSkill) : SkillRecord :=
  { slug := sk.slug
    source_tag := sk.source_tag
    entrypoint := sk.entrypoint
    total_pnl := 0
    times_selected := 0
    times_rewarded := 0
    last_run := none
    enabled := true }

/-- One iteration of the sync loop of `run_cycle` lines 548–564: insert
a fresh record for a new slug, else refresh `source_tag`/`entrypoint` of
the existing record in place. -/
def sync_step (sks : List (String × SkillRecord)) (sk : DiscoveredSkill) :
    List (String × SkillRecord) :=
  match List.lookup sk.slug sks with
  | none => sks ++ [(sk.slug, fresh_record sk)]
  | some old =>
    let refreshed := { old with source_tag := sk.source_tag, entrypoint := sk.entrypoint }
    assocSet sk.slug refreshed sks

/-- The sync loop of `run_cycle` lines 548–564 over the discovery pass. -/
def sync_discovered (skills : List (String × SkillRecord))
    (discovered : List DiscoveredSkill) : List (String × SkillRecord) :=
  discovered.foldl sync_step skills

/-- The disable loop of `run_cycle` lines 566–570: every slug that was
not discovered in this pass is marked disabled. -/
def disable_missing (skills : List (String × SkillRecord))
    (discovered_slugs : List String) : List (String × SkillRecord) :=
  skills.map fun p =>
    if discovered_slugs.contains p.1 then p
    else (p.1, { p.2 with enabled := false })

/-- The discover-and-reconcile step of `run_cycle`. -/
def reconcile_skills (state : AutomatonState)
    (discovered : List DiscoveredSkill) : AutomatonState :=
  let synced := sync_discovered state.skills discovered
  { state with skills := disable_missing synced (discovered.map DiscoveredSkill.slug) }

/-- Step 1 of `run_cycle`: load the existing state (with CLI overrides)
or initialize a fresh one. -/
def load_or_init (config : Config) (st0 : Option AutomatonState)
    (now : ℚ) : AutomatonState :=
  match st0 with
  | none => init_state config.budget_usd config.horizon_days config.epsilon now
  | some s =>
    let s1 := if config.budget_override then
        { s with budget_usd := config.budget_usd } else s
    if config.days_override then { s1 with horizon_days := config.horizon_days }
    else s1

/-- Step 4 of `run_cycle`: recompute the tier, store it, and append a
transition record iff the tier changed. -/
def apply_tier (state : AutomatonState) (now : ℚ) : AutomatonState :=
  let old_tier := state.tier
  let new_tier := compute_tier state now
  if new_tier ≠ old_tier then
    { state with
      tier := new_tier
      tier_history := state.tier_history ++ [(old_tier, new_tier, now)] }
  else
    { state with tier := new_tier }

/-- Inputs of one cycle that come from outside the persisted state: the
discovery pass, the wall clock, the trade-history snapshots and the
outcome of each selected skill's subprocess. -/
structure CycleEnv where
  discovered : List DiscoveredSkill
  now : ℚ
  realized_snapshot : ℚ
  unrealized_snapshot : ℚ
  pnl_before : String → ℚ
  pnl_after : String → ℚ
  run_results : String → Option RunResult
  rand : RandOracle

/-- State after step 1 and the discover-and-reconcile step. -/
def discovered_state (config : Config) (st0 : Option AutomatonState)
    (env : CycleEnv) : AutomatonState :=
  reconcile_skills (load_or_init config st0 env.now) env.discovered

/-- State after the live P&L refresh (live only) and tier computation. -/
def assessed_state (config : Config) (st0 : Option AutomatonState)
    (env : CycleEnv) (live : Bool) : AutomatonState :=
  let st := discovered_state config st0 env
  let st := if live then
      { st with
        unrealized_pnl := env.unrealized_snapshot
        realized_pnl := env.realized_snapshot }
    else st
  apply_tier st env.now

/-- Steps 7–11 of a live cycle: run the selected skills (their outcomes
are `env.run_results`), apply the reward updates for successful runs
only, decay epsilon with the floor, and count the cycle. -/
def live_phase (config : Config) (env : CycleEnv) (st4 : AutomatonState)
    (selected : List String) : AutomatonState :=
  let st5 := apply_reward_updates selected env.run_results
    env.pnl_before env.pnl_after env.now st4
  let eps' := max config.min_epsilon (st5.epsilon * config.epsilon_decay)
  let st6 := { st5 with epsilon := eps' }
  { st6 with cycle_count := st6.cycle_count + 1 }

/-- One full automaton cycle (`run_cycle`): the returned state is the one
passed to `save_state` on whichever path terminates the cycle.  The
early-return paths are: no managed skills after reconciliation; dead
tier; dry run (selection reported, no execution). -/
def run_cycle (config : Config) (st0 : Option AutomatonState)
    (env : CycleEnv) (live : Bool) : AutomatonState :=
  let st2 := discovered_state config st0 env
  if st2.skills = [] then st2
  else
    let st4 := assessed_state config st0 env live
    if st4.tier = Tier.dead then st4
    else
      let selected := select_skills st4
        (tier_max_skills st4.tier config.max_concurrent) env.rand
      if live = false then { st4 with cycle_count := st4.cycle_count + 1 }
      else live_phase config env st4 selected

/-- A previously known, disabled skill whose slug reappears in the
discovery pass (claim C6's rediscovery scenario). -/
def c6_record : SkillRecord :=
  { slug := "alpha"
    source_tag := "sdk:alpha"
    entrypoint := "run.py"
    total_pnl := 7
    times_selected := 4
    times_rewarded := 2
    last_run := none
    enabled := false }

/-- State holding the disabled record for slug `alpha`. -/
def c6_state : AutomatonState :=
  { version := 1
    started_at := 0
    budget_usd := 50
    horizon_days := 30
    spent_usd := 0
    realized_pnl := 0
    unrealized_pnl := 0
    tier := Tier.normal
    epsilon := 0
    cycle_count := 3
    tier_history := []
    skills := [("alpha", c6_record)] }

/-- Discovery pass that rediscovers slug `alpha`. -/
def c6_discovered : List DiscoveredSkill :=
  [{ slug := "alpha", source_tag := "sdk:alpha", entrypoint := "run.py",
     dir := "skills/alpha" }]

/-- A sequence of cycles from a loaded state, each persisting the state
the next one loads. -/
def iterate_cycles (config : Config) (s : AutomatonState)
    (steps : List (CycleEnv × Bool)) : AutomatonState :=
  steps.foldl (fun st step => run_cycle config (some st) step.1 step.2) s

/-- Configuration with the built-in defaults (`CONFIG_SCHEMA`) and no CLI
overrides, used by the concrete cycle scenarios. -/
def dry_config : Config :=
  { budget_usd := 50
    horizon_days := 30
    epsilon := 1/5
    epsilon_decay := 995/1000
    min_epsilon := 1/20
    max_concurrent := 2
    budget_override := false
    days_override := false }

/-- An enabled, unplayed skill record for the concrete scenarios. -/
def dry_record : SkillRecord :=
  { slug := "alpha"
    source_tag := "sdk:alpha"
    entrypoint := "run.py"
    total_pnl := 0
    times_selected := 0
    times_rewarded := 0
    last_run := none
    enabled := true }

/-- A healthy state one day into its horizon, owning one skill record. -/
def dry_state : AutomatonState :=
  { version := 1
    started_at := 0
    budget_usd := 50
    horizon_days := 30
    spent_usd := 0
    realized_pnl := 0
    unrealized_pnl := 0
    tier := Tier.normal
    epsilon := 0
    cycle_count := 0
    tier_history := []
    skills := [("alpha", dry_record)] }

/-- A deterministic oracle satisfying the sampling contracts: `sample`
takes a prefix, `choice` takes the head, `random()` always returns 1. -/
def noop_rand : RandOracle :=
  { sample := fun l k => l.take k
    choice := fun l => l.headD ""
    rand_float := fun _ => 1 }

/-- A cycle environment with an empty discovery pass, flat P&L and no
run results. -/
def dry_env : CycleEnv :=
  { discovered := []
    now := 1
    realized_snapshot := 0
    unrealized_snapshot := 0
    pnl_before := fun _ => 0
    pnl_after := fun _ => 0
    run_results := fun _ => none
    rand := noop_rand }

/-- A state with no skill records at all and three completed cycles. -/
def nosk_state : AutomatonState :=
  { version := 1
    started_at := 0
    budget_usd := 50
    horizon_days := 30
    spent_usd := 0
    realized_pnl := 0
    unrealized_pnl := 0
    tier := Tier.normal
    epsilon := 1/5
    cycle_count := 3
    tier_history := []
    skills := [] }

/-- One `CONFIG_SCHEMA` option resolved by `_load_config` (lines 49–60)
through the environment-variable branch: when the key is absent from the
config file, a set and nonempty environment value is parsed with the
option's declared type; a value the parser rejects (Python
`ValueError`/`TypeError`) silently falls back to the built-in default.
The declared-type parser (`float`/`int`) is abstract: `parse s = none`
models `type_fn(val)` raising. -/
def load_config_option {α : Type} (file_value : Option α)
    (env_value : Option String) (parse : String → Option α) (dflt : α) : α :=
  match file_value with
  | some v => v
  | none =>
    match env_value with
    | none => dflt
    | some s =>
      if s ≠ "" then
        match parse s with
        | some v => v
        | none => dflt
      else dflt

/-- The `--set KEY=VALUE` path of `main` (lines 818–826) once the key is
known: parse the value with the option's declared type; an untypeable
value is rejected with an error message and a non-zero exit, modelled as
`Except.error`. -/
def set_config_value {α : Type} (parse : String → Option α) (val : String) :
    Except String α :=
  match parse val with
  | some v => Except.ok v
  | none => Except.error ("Error: invalid value " ++ val)

/-- The specification's critical-tier scenario: budget 50, spent 0,
realized −46. -/
def c1_state : AutomatonState :=
  { version := 1
    started_at := 0
    budget_usd := 50
    horizon_days := 30
    spent_usd := 0
    realized_pnl := -46
    unrealized_pnl := 0
    tier := Tier.normal
    epsilon := 1/5
    cycle_count := 0
    tier_history := []
    skills := [] }

/-- An enabled record that has already been played five times. -/
def played_record : SkillRecord :=
  { slug := "beta"
    source_tag := "sdk:beta"
    entrypoint := "run.py"
    total_pnl := 3
    times_selected := 5
    times_rewarded := 1
    last_run := none
    enabled := true }

/-- A state owning one unplayed and one played enabled skill. -/
def mixed_state : AutomatonState :=
  { version := 1
    started_at := 0
    budget_usd := 50
    horizon_days := 30
    spent_usd := 0
    realized_pnl := 0
    unrealized_pnl := 0
    tier := Tier.normal
    epsilon := 1/5
    cycle_count := 0
    tier_history := []
    skills := [("alpha", dry_record), ("beta", played_record)] }

/-- The failing run result returned for every slug in the C2 scenario. -/
def c2_fail_result : RunResult :=
  { success := false, returncode := 1, output := "", stderr := "boom" }

/-- The discovery entry for `alpha` in the C2 scenario. -/
def c2_discovered_skill : DiscoveredSkill :=
  { slug := "alpha"
    source_tag := "sdk:alpha"
    entrypoint := "run.py"
    dir := "skills/alpha" }

/-- A live cycle environment rediscovering `alpha`, whose run fails with
exit code 1. -/
def c2_env : CycleEnv :=
  { discovered := [c2_discovered_skill]
    now := 1
    realized_snapshot := 0
    unrealized_snapshot := 0
    pnl_before := fun _ => 0
    pnl_after := fun _ => 0
    run_results := fun _ => some c2_fail_result
    rand := noop_rand }

/-- JSON documents: the persisted state is one of these. -/
inductive Json where
  | jnull
  | jbool (b : Bool)
  | jnum (neg : Bool) (ip : ℕ) (frac : List ℕ)
  | jstr (s : List Char)
  | jarr (elems : List Json)
  | jobj (fields : List (List Char × Json))

/-- The opening brace character, `\x7b`. -/
def braceOpen : Char := Char.ofNat 123

/-- The closing brace character, `\x7d`. -/
def braceClose : Char := Char.ofNat 125

/-- Decimal digit to its character. -/
def digitChar : ℕ → Char
  | 0 => '0'
  | 1 => '1'
  | 2 => '2'
  | 3 => '3'
  | 4 => '4'
  | 5 => '5'
  | 6 => '6'
  | 7 => '7'
  | 8 => '8'
  | _ => '9'

/-- Character to decimal digit, if it is one. -/
def charDigit (c : Char) : Option ℕ :=
  if '0' ≤ c ∧ c ≤ '9' then some (c.toNat - '0'.toNat) else none

/-- JSON whitespace characters. -/
def isWsChar (c : Char) : Bool :=
  c = ' ' || c = '\n' || c = '\t' || c = '\r'

/-- The indentation emitted at nesting depth `n`. -/
def indentChars (n : ℕ) : List Char := List.replicate n ' '

/-- Decimal digits of a natural number, most significant first. -/
def natChars (n : ℕ) : List Char :=
  if n = 0 then ['0'] else ((Nat.digits 10 n).reverse).map digitChar

/-- Serialized decimal number: optional sign, integer part, optional
fraction digits. -/
def serNum (neg : Bool) (ip : ℕ) (frac : List ℕ) : List Char :=
  (if neg then ['-'] else []) ++ natChars ip ++
    (match frac with
     | [] => []
     | d :: ds => '.' :: (digitChar d :: ds.map digitChar))

mutual

/-- The indent-2 pretty printer of the JSON codec (`json.dump` with
`indent=2`) at nesting depth `lvl`. -/
def serJson (lvl : ℕ) : Json → List Char
  | Json.jnull => ['n', 'u', 'l', 'l']
  | Json.jbool true => ['t', 'r', 'u', 'e']
  | Json.jbool false => ['f', 'a', 'l', 's', 'e']
  | Json.jnum neg ip frac => serNum neg ip frac
  | Json.jstr s => '"' :: (s ++ ['"'])
  | Json.jarr [] => ['[', ']']
  | Json.jarr (x :: xs) =>
    '[' :: (serArrItems (lvl + 1) x xs ++
      '\n' :: (indentChars (2 * lvl) ++ [']']))
  | Json.jobj [] => [braceOpen, braceClose]
  | Json.jobj ((k, v) :: fs) =>
    braceOpen :: (serObjItems (lvl + 1) k v fs ++
      '\n' :: (indentChars (2 * lvl) ++ [braceClose]))
termination_by j => sizeOf j
decreasing_by all_goals (simp_wf; omega)

/-- Array items: each on its own indented line, comma-separated. -/
def serArrItems (lvl : ℕ) (x : Json) (xs : List Json) : List Char :=
  '\n' :: (indentChars (2 * lvl) ++ serJson lvl x ++
    (match xs with
     | [] => []
     | y :: ys => ',' :: serArrItems lvl y ys))
termination_by sizeOf x + sizeOf xs + 1
decreasing_by all_goals (simp_wf; omega)

/-- Object fields: each `"key": value` on its own indented line. -/
def serObjItems (lvl : ℕ) (key : List Char) (v : Json)
    (fs : List (List Char × Json)) : List Char :=
  '\n' :: (indentChars (2 * lvl) ++
    ('"' :: (key ++ '"' :: ':' :: ' ' :: serJson lvl v)) ++
    (match fs with
     | [] => []
     | (k2, v2) :: gs => ',' :: serObjItems lvl k2 v2 gs))
termination_by sizeOf v + sizeOf fs + 1
decreasing_by all_goals (simp_wf; omega)

end

/-- Characters the Python encoder emits verbatim inside a string. -/
def wfStrChar (c : Char) : Bool :=
  c ≠ '"' && c ≠ '\\' && decide (32 ≤ c.toNat)

mutual

/-- Well-formed documents: strings need no escaping and fraction digits
are decimal digits. -/
def wfJson : Json → Bool
  | Json.jnull => true
  | Json.jbool _ => true
  | Json.jnum _ _ frac => frac.all (fun d => decide (d < 10))
  | Json.jstr s => s.all wfStrChar
  | Json.jarr xs => wfArr xs
  | Json.jobj fs => wfObj fs

/-- Well-formedness of array elements. -/
def wfArr : List Json → Bool
  | [] => true
  | x :: xs => wfJson x && wfArr xs

/-- Well-formedness of object fields. -/
def wfObj : List (List Char × Json) → Bool
  | [] => true
  | f :: fs => f.1.all wfStrChar && wfJson f.2 && wfObj fs

end

/-- Skip JSON whitespace. -/
def skipWs : List Char → List Char
  | [] => []
  | c :: cs => if isWsChar c then skipWs cs else c :: cs

/-- Parse a string body up to the closing quote (no escapes, per the
well-formedness restriction). -/
def parseStringBody : List Char → Option (List Char × List Char)
  | [] => none
  | c :: cs =>
    if c = '"' then some ([], cs)
    else
      match parseStringBody cs with
      | none => none
      | some (s, r) => some (c :: s, r)

/-- Take the longest digit prefix. -/
def takeDigits : List Char → (List ℕ × List Char)
  | [] => ([], [])
  | c :: cs =>
    match charDigit c with
    | none => ([], c :: cs)
    | some d =>
      let p := takeDigits cs
      (d :: p.1, p.2)

/-- Value of a big-endian digit list. -/
def digitsToNat (ds : List ℕ) : ℕ := ds.foldl (fun a d => 10 * a + d) 0

/-- Continue a number after its integer digits: an optional fraction. -/
def parseNumTail (neg : Bool) (ipds : List ℕ) :
    List Char → Option (Json × List Char)
  | '.' :: rest2 =>
    (match takeDigits rest2 with
     | ([], _) => none
     | (fs, rest3) => some (Json.jnum neg (digitsToNat ipds) fs, rest3))
  | rest => some (Json.jnum neg (digitsToNat ipds) [], rest)

/-- Parse the body of a decimal number after an optional sign. -/
def parseNumBody (neg : Bool) (input : List Char) : Option (Json × List Char) :=
  match takeDigits input with
  | ([], _) => none
  | (ds, rest) => parseNumTail neg ds rest

mutual

/-- Fueled JSON value parser (the fuel bounds the nesting depth). -/
def parseValue : ℕ → List Char → Option (Json × List Char)
  | 0, _ => none
  | fuel + 1, input =>
    match skipWs input with
    | [] => none
    | c :: cs =>
      if c = 'n' then
        match cs with
        | 'u' :: 'l' :: 'l' :: rest => some (Json.jnull, rest)
        | _ => none
      else if c = 't' then
        match cs with
        | 'r' :: 'u' :: 'e' :: rest => some (Json.jbool true, rest)
        | _ => none
      else if c = 'f' then
        match cs with
        | 'a' :: 'l' :: 's' :: 'e' :: rest => some (Json.jbool false, rest)
        | _ => none
      else if c = '"' then
        match parseStringBody cs with
        | none => none
        | some (s, rest) => some (Json.jstr s, rest)
      else if c = '-' then parseNumBody true cs
      else if c = '[' then
        match skipWs cs with
        | ']' :: rest => some (Json.jarr [], rest)
        | _ =>
          match parseArrItems fuel cs with
          | none => none
          | some (xs, rest) => some (Json.jarr xs, rest)
      else if c = braceOpen then
        match skipWs cs with
        | [] => none
        | bc :: rest =>
          if bc = braceClose then some (Json.jobj [], rest)
          else
            match parseObjItems fuel cs with
            | none => none
            | some (fs, rest) => some (Json.jobj fs, rest)
      else if (charDigit c).isSome then parseNumBody false (c :: cs)
      else none

/-- Parse the comma-separated items of a nonempty array, consuming the
closing bracket. -/
def parseArrItems : ℕ → List Char → Option (List Json × List Char)
  | 0, _ => none
  | fuel + 1, input =>
    match parseValue fuel input with
    | none => none
    | some (j, rest) =>
      match skipWs rest with
      | ',' :: more =>
        (match parseArrItems fuel more with
         | none => none
         | some (l, r) => some (j :: l, r))
      | ']' :: more => some ([j], more)
      | _ => none

/-- Parse the comma-separated fields of a nonempty object, consuming the
closing brace. -/
def parseObjItems : ℕ → List Char →
    Option (List (List Char × Json) × List Char)
  | 0, _ => none
  | fuel + 1, input =>
    match skipWs input with
    | '"' :: cs =>
      (match parseStringBody cs with
       | none => none
       | some (key, rest) =>
         match skipWs rest with
         | ':' :: rest2 =>
           (match parseValue fuel rest2 with
            | none => none
            | some (v, rest3) =>
              match skipWs rest3 with
              | ',' :: more =>
                (match parseObjItems fuel more with
                 | none => none
                 | some (l, r) => some ((key, v) :: l, r))
              | bc :: more =>
                if bc = braceClose then some ([(key, v)], more) else none
              | [] => none)
         | _ => none)
    | _ => none

end

/-- Serialize a state document the way `save_state` writes it. -/
def dumps (j : Json) : List Char := serJson 0 j

/-- Parse a state file the way `json.load` reads it: one document
followed by nothing but whitespace. -/
def loads (text : List Char) : Option Json :=
  match parseValue (text.length + 1) text with
  | none => none
  | some (j, rest) => if skipWs rest = [] then some j else none

/-- Content of a path on disk: absent, unreadable/irreparable, or a
stored text. -/
inductive FileContent where
  | missing
  | corrupt
  | stored (text : List Char)

/-- Persist the state document (`save_state`): a single overwrite of the
state file with the serialized document. -/
def save_state (fs : String → FileContent) (path : String) (doc : Json) :
    String → FileContent :=
  fun q => if q = path then FileContent.stored (dumps doc) else fs q

/-- Load the state (`load_state`): `None` when the file does not exist
or cannot be read or parsed, else the parsed document. -/
def load_state (fs : String → FileContent) (path : String) : Option Json :=
  match fs path with
  | FileContent.missing => none
  | FileContent.corrupt => none
  | FileContent.stored text => loads text

/-- No leading digit and no leading dot: safe delimiter after a number. -/
def numDelim (l : List Char) : Bool :=
  match l with
  | [] => true
  | c :: _ => (charDigit c).isNone && c ≠ '.'

/-- The characters an array emits after its first item: empty, or a comma
and the remaining items. -/
def serArrTail (lvl : ℕ) (xs : List Json) : List Char :=
  match xs with
  | [] => []
  | y :: ys => ',' :: serArrItems lvl y ys

/-- The characters an object emits after its first field: empty, or a
comma and the remaining fields. -/
def serObjTail (lvl : ℕ) (fs : List (List Char × Json)) : List Char :=
  match fs with
  | [] => []
  | (k2, v2) :: gs => ',' :: serObjItems lvl k2 v2 gs

/-- With a positive budget, `compute_tier` is the four-way threshold
cascade on the remaining fraction and the elapsed days. -/
theorem compute_tier_eq_of_pos (state : AutomatonState) (now : ℚ)
    (hb : 0 < state.budget_usd) :
    compute_tier state now =
      (if remainingFraction state ≤ 0 ∨ daysElapsed state now ≥ state.horizon_days
       then Tier.dead
       else if remainingFraction state < 10 / 100 then Tier.critical
       else if remainingFraction state < 30 / 100 then Tier.conserving
       else if state.realized_pnl > 0 ∧ remainingFraction state > 70 / 100
       then Tier.thriving
       else Tier.normal) := by
  unfold compute_tier remainingFraction daysElapsed
  rw [if_neg (not_le.mpr hb)]

/-- Claim C1: `compute_tier` is total and follows the ordered first-match
rules of the specification.  With `budgetUsd ≤ 0` it short-circuits to
`dead`; otherwise, writing `rf` for the remaining fraction and `de` for
the days elapsed, the result is `dead` iff `rf ≤ 0` or `de ≥ horizonDays`;
`critical` iff the cycle is alive and `rf < 0.10`; `conserving` iff alive,
`0.10 ≤ rf < 0.30`; `thriving` iff alive, `rf ≥ 0.30`, `realizedPnl > 0`
and `rf > 0.70`; and `normal` in exactly the remaining case. -/
theorem compute_tier_ordered_rules (state : AutomatonState) (now : ℚ) :
    (state.budget_usd ≤ 0 → compute_tier state now = Tier.dead) ∧
    (0 < state.budget_usd →
      ((compute_tier state now = Tier.dead ↔
         remainingFraction state ≤ 0 ∨ daysElapsed state now ≥ state.horizon_days) ∧
       (compute_tier state now = Tier.critical ↔
         (0 < remainingFraction state ∧ daysElapsed state now < state.horizon_days) ∧
           remainingFraction state < 10 / 100) ∧
       (compute_tier state now = Tier.conserving ↔
         (0 < remainingFraction state ∧ daysElapsed state now < state.horizon_days) ∧
           10 / 100 ≤ remainingFraction state ∧ remainingFraction state < 30 / 100) ∧
       (compute_tier state now = Tier.thriving ↔
         (0 < remainingFraction state ∧ daysElapsed state now < state.horizon_days) ∧
           30 / 100 ≤ remainingFraction state ∧
           state.realized_pnl > 0 ∧ remainingFraction state > 70 / 100) ∧
       (compute_tier state now = Tier.normal ↔
         (0 < remainingFraction state ∧ daysElapsed state now < state.horizon_days) ∧
           10 / 100 ≤ remainingFraction state ∧
           ¬ (remainingFraction state < 30 / 100) ∧
           ¬ (state.realized_pnl > 0 ∧ remainingFraction state > 70 / 100)))) := by
  constructor
  · intro h
    unfold compute_tier
    simp [h]
  · intro hb
    rw [compute_tier_eq_of_pos state now hb]
    split_ifs with h1 h2 h3 h4 <;>
      refine ⟨?_, ?_, ?_, ?_, ?_⟩ <;>
        simp_all [not_or, not_le, not_lt, ge_iff_le, gt_iff_lt] <;>
          first
          | tauto
          | (intros; exfalso; rcases h1 with h | h <;> linarith)
          | (intros; exfalso; linarith)

/-- A left fold of binary choices stays inside the candidate list. -/
theorem foldl_choice_mem (xs : List String)
    (g : String → String → Bool) (b : String) :
    xs.foldl (fun best a => if g a best then a else best) b ∈ b :: xs := by
  induction xs generalizing b with
  | nil => simp
  | cons a as ih =>
    simp only [List.foldl_cons]
    rcases List.mem_cons.mp (ih (if g a b then a else b)) with h | h
    · rw [h]
      by_cases hg : g a b = true <;> simp [hg]
    · exact List.mem_cons_of_mem b (List.mem_cons_of_mem a h)

/-- Python `max` returns an element of a nonempty list. -/
theorem pythonMaxBy_mem (f : String → Option ℚ) (l : List String)
    (h : l ≠ []) : pythonMaxBy f l ∈ l := by
  cases l with
  | nil => exact absurd rfl h
  | cons x xs => exact foldl_choice_mem xs _ x

/-- Inserting into a descending-sorted list permutes consing. -/
theorem insertDesc_perm (f : String → Option ℚ) (a : String)
    (l : List String) : (insertDesc f a l).Perm (a :: l) := by
  induction l with
  | nil => simp [insertDesc]
  | cons b bs ih =>
    by_cases hg : avgGt (f a) (f b) = true
    · simp [insertDesc, hg]
    · simp only [insertDesc, hg, if_false, Bool.false_eq_true]
      exact (List.Perm.cons b ih).trans (List.Perm.swap a b bs)

/-- The stable descending sort is a permutation of its input. -/
theorem sortDescBy_perm (f : String → Option ℚ) (l : List String) :
    (sortDescBy f l).Perm l := by
  suffices h : ∀ (l acc : List String),
      (l.foldl (fun acc a => insertDesc f a acc) acc).Perm (l ++ acc) by
    have := h l []
    simpa [sortDescBy] using this
  intro l
  induction l with
  | nil => simp
  | cons a as ih =>
    intro acc
    simp only [List.foldl_cons, List.cons_append]
    exact (ih _).trans
      ((List.Perm.append_left as (insertDesc_perm f a acc)).trans List.perm_middle)

/-- Association-list lookup finds the value of a key that occurs in a
list whose keys are pairwise distinct. -/
theorem lookup_eq_some_of_mem {β : Type} (l : List (String × β)) (s : String)
    (b : β) (hk : (l.map Prod.fst).Nodup) (hm : (s, b) ∈ l) :
    List.lookup s l = some b := by
  induction l with
  | nil => simp at hm
  | cons p ps ih =>
    rcases List.mem_cons.mp hm with h | h
    · rw [← h]
      simp [List.lookup]
    · have hne : s ≠ p.1 := by
        intro he
        have hkey : p.1 ∈ ps.map Prod.fst :=
          List.mem_map.mpr ⟨(s, b), h, by rw [← he]⟩
        exact (List.nodup_cons.mp (by simpa using hk)).1 hkey
      have : (s == p.1) = false := beq_eq_false_iff_ne.mpr hne
      cases p with
      | mk k v =>
        simp only [List.lookup, this]
        exact ih (List.nodup_cons.mp (by simpa using hk)).2 h

/-- The epsilon-greedy loop keeps its accumulator duplicate-free, adds at
most `n` elements, and only ever adds candidates. -/
theorem egDraws_invariant (avg : String → Option ℚ) (rand : RandOracle)
    (eps : ℚ) (hc : ChoiceSpec rand.choice) :
    ∀ (n i : ℕ) (available selected : List String),
      available.Nodup → selected.Nodup →
      (∀ x ∈ selected, x ∉ available) →
      ((egDraws avg rand eps n i available selected).Nodup ∧
        (egDraws avg rand eps n i available selected).length ≤
          selected.length + n ∧
        ∀ x ∈ egDraws avg rand eps n i available selected,
          x ∈ selected ∨ x ∈ available) := by
  intro n
  induction n with
  | zero =>
    intro i available selected ha hs hd
    refine ⟨hs, by simp [egDraws], fun x hx => Or.inl (by simpa [egDraws] using hx)⟩
  | succ n ih =>
    intro i available selected ha hs hd
    by_cases hav : available = []
    · rw [egDraws, if_pos hav]
      exact ⟨hs, by omega, fun x hx => Or.inl hx⟩
    · rw [show egDraws avg rand eps (n + 1) i available selected =
          egDraws avg rand eps n (i + 1)
            (available.erase (if rand.rand_float i < eps then rand.choice available
              else pythonMaxBy avg available))
            (selected ++ [if rand.rand_float i < eps then rand.choice available
              else pythonMaxBy avg available]) from by rw [egDraws, if_neg hav]]
      generalize hpk : (if rand.rand_float i < eps then rand.choice available
          else pythonMaxBy avg available) = pick
      have hpick : pick ∈ available := by
        rw [← hpk]
        split_ifs
        · exact hc available hav
        · exact pythonMaxBy_mem avg available hav
      have hnotsel : pick ∉ selected := fun hmem => hd _ hmem hpick
      have hnd' : (available.erase pick).Nodup := ha.erase pick
      have hsel' : (selected ++ [pick]).Nodup := by
        rw [List.nodup_append]
        refine ⟨hs, List.nodup_singleton _, ?_⟩
        intro a hmem hb
        have ha' : a = pick := by simpa using hb
        exact hnotsel (ha' ▸ hmem)
      have hd' : ∀ x ∈ selected ++ [pick], x ∉ available.erase pick := by
        intro x hx
        rcases List.mem_append.mp hx with h | h
        · exact fun hin => hd x h (List.erase_subset _ _ hin)
        · have hxeq : x = pick := by simpa using h
          subst hxeq
          intro hin
          exact ((List.Nodup.mem_erase_iff ha).mp hin).1 rfl
      obtain ⟨h1, h2, h3⟩ := ih (i + 1) _ _ hnd' hsel' hd'
      refine ⟨h1, ?_, ?_⟩
      · have hlen : (selected ++ [pick]).length = selected.length + 1 := by simp
        omega
      · intro x hx
        rcases h3 x hx with h | h
        · rcases List.mem_append.mp h with h' | h'
          · exact Or.inl h'
          · have hxeq : x = pick := by simpa using h'
            exact Or.inr (hxeq ▸ hpick)
        · exact Or.inr (List.erase_subset _ _ h)

/-- The unplayed-priority block returns at most `n` pairwise-distinct
slugs drawn from the slug list. -/
theorem select_from_unplayed_sound (rand : RandOracle)
    (slugs unplayed : List String) (n : ℕ) (hs : SampleSpec rand.sample)
    (hslugs : slugs.Nodup) (hu : unplayed.Nodup)
    (husub : ∀ x ∈ unplayed, x ∈ slugs) :
    (select_from_unplayed rand slugs unplayed n).length ≤ n ∧
    (select_from_unplayed rand slugs unplayed n).Nodup ∧
    ∀ x ∈ select_from_unplayed rand slugs unplayed n, x ∈ slugs := by
  obtain ⟨hlen0, hnd0, hsub0⟩ :=
    hs unplayed (min n unplayed.length) (Nat.min_le_right _ _)
  simp only [select_from_unplayed]
  split_ifs with hlt
  · obtain ⟨hlen2, hnd2, hsub2⟩ :=
      hs ((slugs.filter fun s =>
          ! (rand.sample unplayed (min n unplayed.length)).contains s))
        _ (Nat.min_le_right _ _)
    refine ⟨List.length_take_le _ _, ?_, ?_⟩
    · apply List.Nodup.sublist (List.take_sublist _ _)
      rw [List.nodup_append]
      refine ⟨hnd0 hu, hnd2 (hslugs.filter _), ?_⟩
      intro x hx hx2
      have hxr := hsub2 x hx2
      rw [List.mem_filter] at hxr
      have : x ∉ rand.sample unplayed (min n unplayed.length) := by
        simpa using hxr.2
      exact this hx
    · intro x hx
      have hx' := List.take_subset _ _ hx
      rcases List.mem_append.mp hx' with h | h
      · exact husub x (hsub0 x h)
      · exact (List.mem_filter.mp (hsub2 x h)).1
  · exact ⟨List.length_take_le _ _,
      List.Nodup.sublist (List.take_sublist _ _) (hnd0 hu),
      fun x hx => husub x (hsub0 x (List.take_subset _ _ hx))⟩

/-- When the unplayed-priority block returns any slug outside the
unplayed set, every unplayed slug is already in the result. -/
theorem select_from_unplayed_covers (rand : RandOracle)
    (slugs unplayed : List String) (n : ℕ) (hs : SampleSpec rand.sample)
    (hu : unplayed.Nodup) :
    ∀ p ∈ select_from_unplayed rand slugs unplayed n, p ∉ unplayed →
      ∀ u ∈ unplayed, u ∈ select_from_unplayed rand slugs unplayed n := by
  obtain ⟨hlen0, hnd0, hsub0⟩ :=
    hs unplayed (min n unplayed.length) (Nat.min_le_right _ _)
  simp only [select_from_unplayed]
  split_ifs with hlt
  · intro p _ hpu u hu'
    have hmin : min n unplayed.length = unplayed.length := by omega
    have hall : ∀ v ∈ unplayed,
        v ∈ rand.sample unplayed (min n unplayed.length) := by
      intro v hv
      have hnd := hnd0 hu
      have hsubF : (rand.sample unplayed (min n unplayed.length)).toFinset ⊆
          unplayed.toFinset := fun a ha =>
        List.mem_toFinset.mpr (hsub0 a (List.mem_toFinset.mp ha))
      have hcard : unplayed.toFinset.card ≤
          (rand.sample unplayed (min n unplayed.length)).toFinset.card := by
        rw [List.toFinset_card_of_nodup hnd, List.toFinset_card_of_nodup hu,
          hlen0, hmin]
      have heq := Finset.eq_of_subset_of_card_le hsubF hcard
      have : v ∈ unplayed.toFinset := List.mem_toFinset.mpr hv
      rw [← heq] at this
      exact List.mem_toFinset.mp this
    rw [List.take_append_eq_append_take]
    apply List.mem_append_left
    rw [List.take_of_length_le (by omega)]
    exact hall u hu'
  · intro p hp hpu _ _
    exact absurd (hsub0 p (List.take_subset _ _ hp)) hpu

/-- `select_skills` returns at most `n` slugs with no duplicates, every
returned slug is the key of an enabled skill record, and if no skill is
enabled the result is empty, given pairwise-distinct dict keys and
oracles obeying the `random.sample` / `random.choice` contracts. -/
theorem select_skills_spec (state : AutomatonState) (n0 : ℕ)
    (rand : RandOracle) (hkeys : (state.skills.map Prod.fst).Nodup)
    (hsamp : SampleSpec rand.sample) (hchoice : ChoiceSpec rand.choice) :
    (select_skills state n0 rand).length ≤ n0 ∧
    (select_skills state n0 rand).Nodup ∧
    (∀ s ∈ select_skills state n0 rand,
      ∃ rec, List.lookup s state.skills = some rec ∧ rec.enabled = true) ∧
    ((∀ p ∈ state.skills, p.2.enabled = false) →
      select_skills state n0 rand = []) := by
  classical
  have hlast : (∀ p ∈ state.skills, p.2.enabled = false) →
      select_skills state n0 rand = [] := by
    intro hall
    have : state.skills.filter (fun p => p.2.enabled) = [] :=
      List.filter_eq_nil_iff.mpr (fun p hp => by simp [hall p hp])
    simp [select_skills, this]
  by_cases hemp : (state.skills.filter fun p => p.2.enabled) = []
  · have hr : select_skills state n0 rand = [] := by simp [select_skills, hemp]
    simp [hr, hlast]
  · have hslugnd : ((state.skills.filter fun p => p.2.enabled).map Prod.fst).Nodup :=
      List.Nodup.sublist ((List.filter_sublist _).map Prod.fst) hkeys
    have hmem_to_rec : ∀ s ∈ (state.skills.filter fun p => p.2.enabled).map Prod.fst,
        ∃ rec, List.lookup s state.skills = some rec ∧ rec.enabled = true := by
      intro s hsm
      rw [List.mem_map] at hsm
      obtain ⟨p, hpmem, hfst⟩ := hsm
      rw [List.mem_filter] at hpmem
      exact ⟨p.2, lookup_eq_some_of_mem _ _ _ hkeys (by
        rw [← hfst]
        simpa using hpmem.1), hpmem.2⟩
    have hkey : (select_skills state n0 rand).length ≤
          min n0 ((state.skills.filter fun p => p.2.enabled).map Prod.fst).length ∧
        (select_skills state n0 rand).Nodup ∧
        ∀ x ∈ select_skills state n0 rand,
          x ∈ (state.skills.filter fun p => p.2.enabled).map Prod.fst := by
      simp only [select_skills]
      rw [if_neg hemp]
      split_ifs with hup hcrit
      · obtain ⟨h1, h2, h3⟩ := select_from_unplayed_sound rand _ _ _ hsamp hslugnd
          (hslugnd.filter _) (fun x hx => (List.mem_filter.mp hx).1)
        exact ⟨h1, h2, h3⟩
      · refine ⟨List.length_take_le _ _, ?_, ?_⟩
        · exact List.Nodup.sublist (List.take_sublist _ _)
            ((sortDescBy_perm _ _).symm.nodup hslugnd)
        · intro x hx
          exact (sortDescBy_perm _ _).mem_iff.mp (List.take_subset _ _ hx)
      · obtain ⟨h1, h2, h3⟩ := egDraws_invariant _ rand _ hchoice _ 0 _ []
          hslugnd (List.nodup_nil) (by simp)
        refine ⟨by simpa using h2, h1, fun x hx => ?_⟩
        rcases h3 x hx with h | h
        · exact absurd h (List.not_mem_nil x)
        · exact h
    exact ⟨le_trans hkey.1 (Nat.min_le_left _ _), hkey.2.1,
      fun s hs => hmem_to_rec s (hkey.2.2 s hs), hlast⟩

/-- Claim C5: for every state and every `n`, `select_skills` returns at
most `n` slugs with no duplicates, every returned slug is the key of an
enabled skill record, and if no skill is enabled the result is empty.
The dict keys are pairwise distinct and the random oracles obey the
`random.sample` / `random.choice` contracts. -/
theorem select_skills_sound (state : AutomatonState) (n0 : ℕ)
    (rand : RandOracle) (hkeys : (state.skills.map Prod.fst).Nodup)
    (hsamp : SampleSpec rand.sample) (hchoice : ChoiceSpec rand.choice) :
    (select_skills state n0 rand).length ≤ n0 ∧
    (select_skills state n0 rand).Nodup ∧
    (∀ s ∈ select_skills state n0 rand,
      ∃ rec, List.lookup s state.skills = some rec ∧ rec.enabled = true) ∧
    ((∀ p ∈ state.skills, p.2.enabled = false) →
      select_skills state n0 rand = []) :=
  select_skills_spec state n0 rand hkeys hsamp hchoice

/-- Claim C4: whenever `select_skills` returns a slug that has already
been played, every unplayed enabled slug is also in the result — the
unplayed enabled skills are served first, and played skills are drawn
only to top up a result that already contains all unplayed ones. -/
theorem select_skills_unplayed_first (state : AutomatonState) (n0 : ℕ)
    (rand : RandOracle) (hkeys : (state.skills.map Prod.fst).Nodup)
    (hsamp : SampleSpec rand.sample) :
    ∀ p ∈ select_skills state n0 rand,
      (lookupRec (state.skills.filter fun q => q.2.enabled) p).times_selected ≠ 0 →
      ∀ u ∈ (state.skills.filter fun q => q.2.enabled).map Prod.fst,
        (lookupRec (state.skills.filter fun q => q.2.enabled) u).times_selected = 0 →
        u ∈ select_skills state n0 rand := by
  classical
  by_cases hemp : (state.skills.filter fun p => p.2.enabled) = []
  · intro p hp
    rw [show select_skills state n0 rand = [] from by simp [select_skills, hemp]] at hp
    exact absurd hp (List.not_mem_nil p)
  · have hslugnd : ((state.skills.filter fun p => p.2.enabled).map Prod.fst).Nodup :=
      List.Nodup.sublist ((List.filter_sublist _).map Prod.fst) hkeys
    simp only [select_skills]
    rw [if_neg hemp]
    split_ifs with hup hcrit
    · intro p hp htimes u humem hu0
      refine select_from_unplayed_covers rand _ _ _ hsamp (hslugnd.filter _)
        p hp ?_ u ?_
      · intro hmem
        exact htimes (by simpa using (List.mem_filter.mp hmem).2)
      · exact List.mem_filter.mpr ⟨humem, by simp [hu0]⟩
    · intro p hp htimes u humem hu0
      rw [not_not] at hup
      have : u ∈ ((state.skills.filter fun p => p.2.enabled).map Prod.fst).filter
          (fun s => (lookupRec (state.skills.filter fun p => p.2.enabled) s).times_selected == 0) :=
        List.mem_filter.mpr ⟨humem, by simp [hu0]⟩
      rw [hup] at this
      exact absurd this (List.not_mem_nil u)
    · intro p hp htimes u humem hu0
      rw [not_not] at hup
      have : u ∈ ((state.skills.filter fun p => p.2.enabled).map Prod.fst).filter
          (fun s => (lookupRec (state.skills.filter fun p => p.2.enabled) s).times_selected == 0) :=
        List.mem_filter.mpr ⟨humem, by simp [hu0]⟩
      rw [hup] at this
      exact absurd this (List.not_mem_nil u)

/-- Setting a key in place never changes the key sequence of the dict. -/
theorem assocSet_map_fst (k : String) (v : SkillRecord)
    (l : List (String × SkillRecord)) :
    (assocSet k v l).map Prod.fst = l.map Prod.fst := by
  unfold assocSet
  rw [List.map_map]
  apply List.map_congr_left
  intro p _
  by_cases hk : p.1 = k <;> simp [Function.comp, hk]

/-- Disabling missing slugs never changes the key sequence of the dict. -/
theorem disable_missing_map_fst (l : List (String × SkillRecord))
    (ds : List String) :
    (disable_missing l ds).map Prod.fst = l.map Prod.fst := by
  unfold disable_missing
  rw [List.map_map]
  apply List.map_congr_left
  intro p _
  simp only [Function.comp_apply]
  split <;> rfl

/-- Association-list lookup is untouched at keys other than the set one. -/
theorem lookup_assocSet_ne (k : String) (v : SkillRecord)
    (l : List (String × SkillRecord)) (s : String) (h : s ≠ k) :
    List.lookup s (assocSet k v l) = List.lookup s l := by
  induction l with
  | nil => rfl
  | cons p ps ih =>
    cases p with
    | mk pk pv =>
      show List.lookup s ((if pk = k then (k, v) else (pk, pv)) :: assocSet k v ps) = _
      by_cases hk : pk = k
      · rw [if_pos hk]
        have hbeq : (s == k) = false := beq_eq_false_iff_ne.mpr h
        have hbeq' : (s == pk) = false := beq_eq_false_iff_ne.mpr (hk ▸ h)
        simp only [List.lookup, hbeq, hbeq']
        exact ih
      · rw [if_neg hk]
        by_cases hs : s = pk
        · have hbeq : (s == pk) = true := beq_iff_eq.mpr hs
          simp only [List.lookup, hbeq]
        · have hbeq : (s == pk) = false := beq_eq_false_iff_ne.mpr hs
          simp only [List.lookup, hbeq]
          exact ih

/-- Setting a present key makes lookup return the new value. -/
theorem lookup_assocSet_eq (k : String) (v : SkillRecord)
    (l : List (String × SkillRecord)) (r : SkillRecord)
    (h : List.lookup k l = some r) :
    List.lookup k (assocSet k v l) = some v := by
  induction l with
  | nil => exact absurd h (by simp)
  | cons p ps ih =>
    cases p with
    | mk pk pv =>
      show List.lookup k ((if pk = k then (k, v) else (pk, pv)) :: assocSet k v ps) = _
      by_cases hk : pk = k
      · rw [if_pos hk]
        simp only [List.lookup, beq_self_eq_true]
      · rw [if_neg hk]
        have hbeq : (k == pk) = false :=
          beq_eq_false_iff_ne.mpr (fun he => hk he.symm)
        simp only [List.lookup, hbeq] at h ⊢
        exact ih h

/-- Lookup misses exactly the keys that are not in the list. -/
theorem lookup_none_iff {β : Type} (l : List (String × β)) (s : String) :
    List.lookup s l = none ↔ s ∉ l.map Prod.fst := by
  induction l with
  | nil => simp
  | cons p ps ih =>
    cases p with
    | mk k v =>
      by_cases h : s = k
      · simp [List.lookup, h]
      · have hbeq : (s == k) = false := beq_eq_false_iff_ne.mpr h
        simp [List.lookup, hbeq, ih, h]

/-- One sync iteration keeps the dict keys pairwise distinct. -/
theorem sync_step_keys_nodup (sks : List (String × SkillRecord))
    (sk : DiscoveredSkill) (h : (sks.map Prod.fst).Nodup) :
    ((sync_step sks sk).map Prod.fst).Nodup := by
  unfold sync_step
  cases hl : List.lookup sk.slug sks with
  | none =>
    have hnot := (lookup_none_iff sks sk.slug).mp hl
    rw [List.map_append]
    rw [List.nodup_append]
    refine ⟨h, List.nodup_singleton _, ?_⟩
    intro a ha hb
    have hae : a = sk.slug := by simpa using hb
    exact hnot (hae ▸ ha)
  | some old =>
    rw [assocSet_map_fst]
    exact h

/-- The sync loop keeps the dict keys pairwise distinct. -/
theorem sync_discovered_keys_nodup (discovered : List DiscoveredSkill) :
    ∀ skills : List (String × SkillRecord), (skills.map Prod.fst).Nodup →
      ((sync_discovered skills discovered).map Prod.fst).Nodup := by
  induction discovered with
  | nil => intro skills h; exact h
  | cons d ds ih =>
    intro skills h
    exact ih (sync_step skills d) (sync_step_keys_nodup skills d h)

/-- Reconciliation keeps the dict keys pairwise distinct. -/
theorem reconcile_keys_nodup (state : AutomatonState)
    (disc : List DiscoveredSkill)
    (h : (state.skills.map Prod.fst).Nodup) :
    (((reconcile_skills state disc).skills).map Prod.fst).Nodup := by
  show ((disable_missing (sync_discovered state.skills disc)
    (disc.map DiscoveredSkill.slug)).map Prod.fst).Nodup
  rw [disable_missing_map_fst]
  exact sync_discovered_keys_nodup disc state.skills h

/-- Loading with overrides leaves the skills mapping unchanged. -/
theorem load_or_init_skills (config : Config) (s : AutomatonState) (now : ℚ) :
    (load_or_init config (some s) now).skills = s.skills := by
  unfold load_or_init
  split_ifs <;> rfl

/-- Tier computation leaves the skills mapping unchanged. -/
theorem apply_tier_skills (st : AutomatonState) (now : ℚ) :
    (apply_tier st now).skills = st.skills := by
  simp only [apply_tier]
  split_ifs <;> rfl

/-- The live P&L refresh and tier step leave the skills mapping of the
reconciled state unchanged. -/
theorem assessed_state_skills (config : Config) (st0 : Option AutomatonState)
    (env : CycleEnv) (live : Bool) :
    (assessed_state config st0 env live).skills =
      (discovered_state config st0 env).skills := by
  cases live <;> simp [assessed_state, apply_tier_skills]

/-- Keys other than the updated slug are untouched by `update_bandit`. -/
theorem update_bandit_lookup_ne (state : AutomatonState) (slug : String)
    (pb pa : String → ℚ) (now : ℚ) (s : String) (h : s ≠ slug) :
    List.lookup s (update_bandit state slug pb pa now).skills =
      List.lookup s state.skills := by
  unfold update_bandit
  cases hl : List.lookup slug state.skills with
  | none => rfl
  | some skill => exact lookup_assocSet_ne slug _ state.skills s h

/-- The updated slug's record after `update_bandit` is the bumped one. -/
theorem update_bandit_lookup_eq (state : AutomatonState) (slug : String)
    (pb pa : String → ℚ) (now : ℚ) (r : SkillRecord)
    (h : List.lookup slug state.skills = some r) :
    List.lookup slug (update_bandit state slug pb pa now).skills =
      some (bump_record r (pa r.source_tag - pb r.source_tag) now) := by
  unfold update_bandit
  rw [h]
  exact lookup_assocSet_eq slug _ state.skills r h

/-- A reward step for a different slug leaves a slug's record alone. -/
theorem reward_step_lookup_ne (results : String → Option RunResult)
    (pb pa : String → ℚ) (now : ℚ) (st : AutomatonState) (s slug : String)
    (h : s ≠ slug) :
    List.lookup s (reward_step results pb pa now st slug).skills =
      List.lookup s st.skills := by
  unfold reward_step
  split_ifs
  · cases hl : List.lookup slug st.skills with
    | none => rfl
    | some skill => exact update_bandit_lookup_ne st slug pb pa now s h
  · rfl

/-- The reward loop leaves slugs outside the selected list alone. -/
theorem apply_reward_updates_not_selected (selected : List String)
    (results : String → Option RunResult) (pb pa : String → ℚ) (now : ℚ) :
    ∀ (st : AutomatonState) (slug : String), slug ∉ selected →
      List.lookup slug (apply_reward_updates selected results pb pa now st).skills =
        List.lookup slug st.skills := by
  induction selected with
  | nil => intro st slug _; rfl
  | cons a as ih =>
    intro st slug hmem
    have hne : slug ≠ a := fun he => hmem (he ▸ List.mem_cons_self a as)
    have hnas : slug ∉ as := fun hm => hmem (List.mem_cons_of_mem a hm)
    calc List.lookup slug (apply_reward_updates (a :: as) results pb pa now st).skills
        = List.lookup slug (reward_step results pb pa now st a).skills :=
          ih (reward_step results pb pa now st a) slug hnas
      _ = List.lookup slug st.skills :=
          reward_step_lookup_ne results pb pa now st slug a hne

/-- Claim C2 core: across the reward loop, a selected slug's record is
bumped when its run reported success and untouched otherwise. -/
theorem apply_reward_updates_lookup (results : String → Option RunResult)
    (pb pa : String → ℚ) (now : ℚ) :
    ∀ (selected : List String) (st : AutomatonState) (slug : String)
      (r : SkillRecord), selected.Nodup → slug ∈ selected →
      List.lookup slug st.skills = some r →
      List.lookup slug (apply_reward_updates selected results pb pa now st).skills =
        (if resultSuccess (results slug) then
          some (bump_record r (pa r.source_tag - pb r.source_tag) now)
        else some r) := by
  intro selected
  induction selected with
  | nil => intro st slug r _ hmem; exact absurd hmem (List.not_mem_nil slug)
  | cons a as ih =>
    intro st slug r hnd hmem hrec
    have hnd' := List.nodup_cons.mp hnd
    rcases List.mem_cons.mp hmem with heq | hmem'
    · subst heq
      have hrest : ∀ st' : AutomatonState,
          List.lookup slug (apply_reward_updates as results pb pa now st').skills =
            List.lookup slug st'.skills :=
        fun st' => apply_reward_updates_not_selected as results pb pa now st'
          slug hnd'.1
      show List.lookup slug (apply_reward_updates as results pb pa now
        (reward_step results pb pa now st slug)).skills = _
      rw [hrest]
      unfold reward_step
      by_cases hsucc : resultSuccess (results slug) = true
      · rw [if_pos hsucc, hrec, if_pos hsucc]
        exact update_bandit_lookup_eq st slug pb pa now r hrec
      · rw [if_neg hsucc, if_neg hsucc]
        exact hrec
    · have hne : slug ≠ a := fun he => hnd'.1 (he ▸ hmem')
      show List.lookup slug (apply_reward_updates as results pb pa now
        (reward_step results pb pa now st a)).skills = _
      exact ih (reward_step results pb pa now st a) slug r hnd'.2 hmem'
        (by rw [reward_step_lookup_ne results pb pa now st slug a hne]; exact hrec)

/-- Appending a fresh key at the end is invisible to other keys. -/
theorem lookup_append_single {β : Type} (l : List (String × β)) (k : String)
    (v : β) (s : String) (h : s ≠ k) :
    List.lookup s (l ++ [(k, v)]) = List.lookup s l := by
  induction l with
  | nil =>
    have hbeq : (s == k) = false := beq_eq_false_iff_ne.mpr h
    simp [List.lookup, hbeq]
  | cons p ps ih =>
    cases p with
    | mk pk pv =>
      by_cases hs : s = pk
      · have hbeq : (s == pk) = true := beq_iff_eq.mpr hs
        simp [List.lookup, hbeq]
      · have hbeq : (s == pk) = false := beq_eq_false_iff_ne.mpr hs
        simp only [List.cons_append, List.lookup, hbeq]
        exact ih

/-- Appending a key that was absent makes it found. -/
theorem lookup_append_self {β : Type} (l : List (String × β)) (k : String)
    (v : β) (h : List.lookup k l = none) :
    List.lookup k (l ++ [(k, v)]) = some v := by
  induction l with
  | nil => simp [List.lookup]
  | cons p ps ih =>
    cases p with
    | mk pk pv =>
      by_cases hs : k = pk
      · have hbeq : (k == pk) = true := beq_iff_eq.mpr hs
        simp [List.lookup, hbeq] at h
      · have hbeq : (k == pk) = false := beq_eq_false_iff_ne.mpr hs
        simp only [List.lookup, hbeq] at h
        simp only [List.cons_append, List.lookup, hbeq]
        exact ih h

/-- The sync loop is invisible to slugs outside the discovery pass. -/
theorem lookup_sync_not_discovered (disc : List DiscoveredSkill) :
    ∀ (skills : List (String × SkillRecord)) (s : String),
      s ∉ disc.map DiscoveredSkill.slug →
      List.lookup s (sync_discovered skills disc) = List.lookup s skills := by
  induction disc with
  | nil => intro skills s _; rfl
  | cons d ds ih =>
    intro skills s hs
    have hne : s ≠ d.slug := fun he => hs (by simp [he])
    have hs' : s ∉ ds.map DiscoveredSkill.slug := fun hm => hs (by simp [hm])
    show List.lookup s (sync_discovered (sync_step skills d) ds) = _
    rw [ih (sync_step skills d) s hs']
    unfold sync_step
    cases hl : List.lookup d.slug skills with
    | none => exact lookup_append_single skills d.slug _ s hne
    | some old => exact lookup_assocSet_ne d.slug _ skills s hne

/-- After the sync loop, a discovered slug's record is the fresh zeroed
record when the slug was new, else the old record with only
`source_tag`/`entrypoint` refreshed. -/
theorem lookup_sync_of_mem (disc : List DiscoveredSkill) :
    (disc.map DiscoveredSkill.slug).Nodup →
    ∀ d ∈ disc, ∀ skills : List (String × SkillRecord),
      List.lookup d.slug (sync_discovered skills disc) =
        (match List.lookup d.slug skills with
         | none => some (fresh_record d)
         | some r =>
           some { r with source_tag := d.source_tag, entrypoint := d.entrypoint }) := by
  induction disc with
  | nil => intro _ d hd; exact absurd hd (List.not_mem_nil d)
  | cons e es ih =>
    intro hnd d hd skills
    rw [List.map_cons] at hnd
    have hnd' := List.nodup_cons.mp hnd
    rcases List.mem_cons.mp hd with heq | hmem
    · subst heq
      show List.lookup d.slug (sync_discovered (sync_step skills d) es) = _
      rw [lookup_sync_not_discovered es (sync_step skills d) d.slug hnd'.1]
      unfold sync_step
      cases hl : List.lookup d.slug skills with
      | none => exact lookup_append_self skills d.slug _ hl
      | some old => exact lookup_assocSet_eq d.slug _ skills old hl
    · have hne : d.slug ≠ e.slug := by
        intro he
        have hin : d.slug ∈ es.map DiscoveredSkill.slug :=
          List.mem_map.mpr ⟨d, hmem, rfl⟩
        exact hnd'.1 (he ▸ hin)
      show List.lookup d.slug (sync_discovered (sync_step skills e) es) = _
      rw [ih hnd'.2 d hmem (sync_step skills e)]
      have hstep : List.lookup d.slug (sync_step skills e) =
          List.lookup d.slug skills := by
        unfold sync_step
        cases hl : List.lookup e.slug skills with
        | none => exact lookup_append_single skills e.slug _ d.slug hne
        | some old => exact lookup_assocSet_ne e.slug _ skills d.slug hne
      rw [hstep]

/-- The disable loop flips `enabled` off exactly on the slugs outside the
discovery pass and leaves the rest alone. -/
theorem lookup_disable_missing (l : List (String × SkillRecord))
    (ds : List String) (s : String) :
    List.lookup s (disable_missing l ds) =
      (if s ∈ ds then List.lookup s l
       else (List.lookup s l).map fun r => { r with enabled := false }) := by
  induction l with
  | nil => by_cases h : s ∈ ds <;> simp [disable_missing, h]
  | cons p ps ih =>
    cases p with
    | mk pk pv =>
      show List.lookup s ((if ds.contains pk = true then (pk, pv)
        else (pk, { pv with enabled := false })) :: disable_missing ps ds) = _
      by_cases hspk : s = pk
      · subst hspk
        by_cases hc : s ∈ ds
        · have hcb : ds.contains s = true := by simpa using hc
          rw [if_pos hcb]
          simp [List.lookup, hc]
        · have hcb : ¬ ds.contains s = true := by simpa using hc
          rw [if_neg hcb]
          simp [List.lookup, hc]
      · have hbeq : (s == pk) = false := beq_eq_false_iff_ne.mpr hspk
        by_cases hcpk : ds.contains pk = true
        · rw [if_pos hcpk]
          simp only [List.lookup, hbeq]
          exact ih
        · rw [if_neg hcpk]
          simp only [List.lookup, hbeq]
          exact ih

/-- Claim C6 (amended): after the discover-and-reconcile step, every slug
absent from the discovery pass has its record kept but marked
`enabled = false`; a newly discovered slug is inserted as the fresh
zeroed record with `enabled = true`; a rediscovered existing slug keeps
its whole record — statistics and, in particular, its `enabled` flag —
with only `sourceTag`/`entrypoint` refreshed (so rediscovery does NOT
re-enable a previously disabled record); and no record is ever deleted. -/
theorem reconcile_enabled_amended (state : AutomatonState)
    (disc : List DiscoveredSkill)
    (hnd : (disc.map DiscoveredSkill.slug).Nodup) :
    (∀ s : String, s ∉ disc.map DiscoveredSkill.slug →
      List.lookup s (reconcile_skills state disc).skills =
        (List.lookup s state.skills).map fun r => { r with enabled := false }) ∧
    (∀ d ∈ disc, List.lookup d.slug state.skills = none →
      List.lookup d.slug (reconcile_skills state disc).skills =
        some (fresh_record d)) ∧
    (∀ d ∈ disc, ∀ r, List.lookup d.slug state.skills = some r →
      List.lookup d.slug (reconcile_skills state disc).skills =
        some { r with source_tag := d.source_tag, entrypoint := d.entrypoint }) ∧
    (∀ s r, List.lookup s state.skills = some r →
      ∃ r', List.lookup s (reconcile_skills state disc).skills = some r') := by
  have hrec : ∀ s : String,
      List.lookup s (reconcile_skills state disc).skills =
        List.lookup s (disable_missing (sync_discovered state.skills disc)
          (disc.map DiscoveredSkill.slug)) := fun s => rfl
  refine ⟨?_, ?_, ?_, ?_⟩
  · intro s hs
    rw [hrec s, lookup_disable_missing, if_neg hs,
      lookup_sync_not_discovered disc state.skills s hs]
  · intro d hd hnone
    have hmem : d.slug ∈ disc.map DiscoveredSkill.slug :=
      List.mem_map.mpr ⟨d, hd, rfl⟩
    rw [hrec _, lookup_disable_missing, if_pos hmem,
      lookup_sync_of_mem disc hnd d hd state.skills, hnone]
  · intro d hd r hr
    have hmem : d.slug ∈ disc.map DiscoveredSkill.slug :=
      List.mem_map.mpr ⟨d, hd, rfl⟩
    rw [hrec _, lookup_disable_missing, if_pos hmem,
      lookup_sync_of_mem disc hnd d hd state.skills, hr]
  · intro s r hr
    by_cases hs : s ∈ disc.map DiscoveredSkill.slug
    · obtain ⟨d, hd, hds⟩ := List.mem_map.mp hs
      subst hds
      refine ⟨{ r with source_tag := d.source_tag, entrypoint := d.entrypoint }, ?_⟩
      rw [hrec _, lookup_disable_missing,
        if_pos (List.mem_map.mpr ⟨d, hd, rfl⟩),
        lookup_sync_of_mem disc hnd d hd state.skills, hr]
    · refine ⟨{ r with enabled := false }, ?_⟩
      rw [hrec _, lookup_disable_missing, if_neg hs,
        lookup_sync_not_discovered disc state.skills s hs, hr]
      rfl

/-- Claim C6 counterexample: slug `alpha` appears in the current
discovery pass, yet after reconciliation its record still has
`enabled = false` — rediscovery does not re-enable a soft-removed
record, refuting the claimed "enabled iff discovered" equivalence. -/
theorem reconcile_reenable_counterexample :
    "alpha" ∈ c6_discovered.map DiscoveredSkill.slug ∧
    (List.lookup "alpha" (reconcile_skills c6_state c6_discovered).skills).map
      SkillRecord.enabled = some false := by
  constructor
  · simp [c6_discovered]
  · rfl

/-- On a live cycle that reaches the execution phase, `run_cycle` is the
reward-update loop followed by the epsilon decay and the cycle count. -/
theorem run_cycle_live_eq (config : Config) (st0 : Option AutomatonState)
    (env : CycleEnv)
    (hne : (discovered_state config st0 env).skills ≠ [])
    (halive : (assessed_state config st0 env true).tier ≠ Tier.dead) :
    run_cycle config st0 env true =
      live_phase config env (assessed_state config st0 env true)
        (select_skills (assessed_state config st0 env true)
          (tier_max_skills (assessed_state config st0 env true).tier
            config.max_concurrent) env.rand) := by
  simp only [run_cycle]
  rw [if_neg hne, if_neg halive]
  simp

/-- Claim C2: in a live cycle that reaches the execution phase, a
selected skill's bandit statistics are updated exactly when its run
reported success.  On success the record becomes `bump_record` of the
attributed delta — `total_pnl += delta`, `times_selected += 1`,
`times_rewarded` incremented iff `delta > 0`, and `last_run := now` —
while a selected skill whose run failed keeps its entire record
unchanged from the reconciled pre-run state. -/
theorem live_cycle_reward_iff_success (config : Config)
    (s0 : AutomatonState) (env : CycleEnv) (slug : String) (r : SkillRecord)
    (hkeys : (s0.skills.map Prod.fst).Nodup)
    (hsamp : SampleSpec env.rand.sample) (hchoice : ChoiceSpec env.rand.choice)
    (hne : (discovered_state config (some s0) env).skills ≠ [])
    (halive : (assessed_state config (some s0) env true).tier ≠ Tier.dead)
    (hsel : slug ∈ select_skills (assessed_state config (some s0) env true)
      (tier_max_skills (assessed_state config (some s0) env true).tier
        config.max_concurrent) env.rand)
    (hrec : List.lookup slug (assessed_state config (some s0) env true).skills =
      some r) :
    ∃ r', List.lookup slug (run_cycle config (some s0) env true).skills = some r' ∧
      r'.times_selected = r.times_selected +
        (if resultSuccess (env.run_results slug) then 1 else 0) ∧
      r'.total_pnl = r.total_pnl +
        (if resultSuccess (env.run_results slug) then
          env.pnl_after r.source_tag - env.pnl_before r.source_tag else 0) ∧
      (resultSuccess (env.run_results slug) = true →
        r' = bump_record r
          (env.pnl_after r.source_tag - env.pnl_before r.source_tag) env.now ∧
        r'.times_rewarded = r.times_rewarded +
          (if env.pnl_after r.source_tag - env.pnl_before r.source_tag > 0
            then 1 else 0) ∧
        r'.last_run = some env.now) ∧
      (resultSuccess (env.run_results slug) = false → r' = r) := by
  have hkeys4 : ((assessed_state config (some s0) env true).skills.map
      Prod.fst).Nodup := by
    rw [assessed_state_skills]
    show (((reconcile_skills (load_or_init config (some s0) env.now)
      env.discovered).skills).map Prod.fst).Nodup
    exact reconcile_keys_nodup _ _ (by rw [load_or_init_skills]; exact hkeys)
  have hnd_sel := (select_skills_spec (assessed_state config (some s0) env true)
    (tier_max_skills (assessed_state config (some s0) env true).tier
      config.max_concurrent) env.rand hkeys4 hsamp hchoice).2.1
  have hlook := apply_reward_updates_lookup env.run_results env.pnl_before
    env.pnl_after env.now _ _ slug r hnd_sel hsel hrec
  have hlp : (live_phase config env (assessed_state config (some s0) env true)
      (select_skills (assessed_state config (some s0) env true)
        (tier_max_skills (assessed_state config (some s0) env true).tier
          config.max_concurrent) env.rand)).skills =
      (apply_reward_updates (select_skills (assessed_state config (some s0) env true)
        (tier_max_skills (assessed_state config (some s0) env true).tier
          config.max_concurrent) env.rand)
        env.run_results env.pnl_before env.pnl_after env.now
        (assessed_state config (some s0) env true)).skills := rfl
  rw [run_cycle_live_eq config (some s0) env hne halive]
  by_cases hsucc : resultSuccess (env.run_results slug) = true
  · refine ⟨bump_record r (env.pnl_after r.source_tag - env.pnl_before r.source_tag)
      env.now, ?_, ?_, ?_, ?_, ?_⟩
    · rw [hlp, hlook, if_pos hsucc]
    · simp [bump_record, hsucc]
    · simp [bump_record, hsucc]
    · intro hs
      exact ⟨rfl, rfl, rfl⟩
    · intro hf
      rw [hsucc] at hf
      cases hf
  · rw [Bool.not_eq_true] at hsucc
    refine ⟨r, ?_, by simp [hsucc], by simp [hsucc], ?_, fun _ => rfl⟩
    · rw [hlp, hlook, if_neg (by simp [hsucc])]
    · intro ht
      rw [hsucc] at ht
      cases ht

/-- Loading an existing state never touches epsilon or the counter. -/
theorem load_or_init_preserves (config : Config) (s : AutomatonState) (now : ℚ) :
    (load_or_init config (some s) now).epsilon = s.epsilon ∧
    (load_or_init config (some s) now).cycle_count = s.cycle_count := by
  unfold load_or_init
  split_ifs <;> exact ⟨rfl, rfl⟩

/-- The reconciled state keeps the loaded epsilon and counter. -/
theorem discovered_state_preserves (config : Config) (s : AutomatonState)
    (env : CycleEnv) :
    (discovered_state config (some s) env).epsilon = s.epsilon ∧
    (discovered_state config (some s) env).cycle_count = s.cycle_count := by
  have h := load_or_init_preserves config s env.now
  exact ⟨h.1, h.2⟩

/-- The tier step never touches epsilon or the counter. -/
theorem apply_tier_preserves (st : AutomatonState) (now : ℚ) :
    (apply_tier st now).epsilon = st.epsilon ∧
    (apply_tier st now).cycle_count = st.cycle_count := by
  simp only [apply_tier]
  split_ifs <;> exact ⟨rfl, rfl⟩

/-- The P&L refresh and tier step keep the loaded epsilon and counter. -/
theorem assessed_state_preserves (config : Config) (s : AutomatonState)
    (env : CycleEnv) (live : Bool) :
    (assessed_state config (some s) env live).epsilon = s.epsilon ∧
    (assessed_state config (some s) env live).cycle_count = s.cycle_count := by
  have h1 := discovered_state_preserves config s env
  have h2 := apply_tier_preserves (if live then
      { discovered_state config (some s) env with
        unrealized_pnl := env.unrealized_snapshot
        realized_pnl := env.realized_snapshot }
    else discovered_state config (some s) env) env.now
  cases live <;>
    simpa [assessed_state, h1.1, h1.2] using h2

/-- Bandit updates never touch epsilon or the counter. -/
theorem update_bandit_preserves (st : AutomatonState) (slug : String)
    (pb pa : String → ℚ) (now : ℚ) :
    (update_bandit st slug pb pa now).epsilon = st.epsilon ∧
    (update_bandit st slug pb pa now).cycle_count = st.cycle_count := by
  unfold update_bandit
  cases List.lookup slug st.skills <;> exact ⟨rfl, rfl⟩

/-- A reward step never touches epsilon or the counter. -/
theorem reward_step_preserves (results : String → Option RunResult)
    (pb pa : String → ℚ) (now : ℚ) (st : AutomatonState) (slug : String) :
    (reward_step results pb pa now st slug).epsilon = st.epsilon ∧
    (reward_step results pb pa now st slug).cycle_count = st.cycle_count := by
  unfold reward_step
  split_ifs
  · cases hl : List.lookup slug st.skills with
    | none => exact ⟨rfl, rfl⟩
    | some skill => exact update_bandit_preserves st slug pb pa now
  · exact ⟨rfl, rfl⟩

/-- The reward loop never touches epsilon or the counter. -/
theorem apply_reward_updates_preserves (selected : List String)
    (results : String → Option RunResult) (pb pa : String → ℚ) (now : ℚ) :
    ∀ st : AutomatonState,
      (apply_reward_updates selected results pb pa now st).epsilon = st.epsilon ∧
      (apply_reward_updates selected results pb pa now st).cycle_count =
        st.cycle_count := by
  induction selected with
  | nil => intro st; exact ⟨rfl, rfl⟩
  | cons a as ih =>
    intro st
    have h1 := ih (reward_step results pb pa now st a)
    have h2 := reward_step_preserves results pb pa now st a
    exact ⟨h1.1.trans h2.1, h1.2.trans h2.2⟩

/-- Epsilon after one cycle from a loaded state: either untouched (early
return or dry run) or decayed with the floor (full live cycle). -/
theorem run_cycle_epsilon_cases (config : Config) (s0 : AutomatonState)
    (env : CycleEnv) (live : Bool) :
    ((live = true ∧ (discovered_state config (some s0) env).skills ≠ [] ∧
        (assessed_state config (some s0) env live).tier ≠ Tier.dead) →
      (run_cycle config (some s0) env live).epsilon =
        max config.min_epsilon (s0.epsilon * config.epsilon_decay)) ∧
    (¬ (live = true ∧ (discovered_state config (some s0) env).skills ≠ [] ∧
        (assessed_state config (some s0) env live).tier ≠ Tier.dead) →
      (run_cycle config (some s0) env live).epsilon = s0.epsilon) := by
  by_cases h1 : (discovered_state config (some s0) env).skills = []
  · have hr : run_cycle config (some s0) env live =
        discovered_state config (some s0) env := by
      simp only [run_cycle]
      rw [if_pos h1]
    refine ⟨fun hcond => absurd h1 hcond.2.1, fun _ => ?_⟩
    rw [hr]
    exact (discovered_state_preserves config s0 env).1
  · by_cases h2 : (assessed_state config (some s0) env live).tier = Tier.dead
    · have hr : run_cycle config (some s0) env live =
          assessed_state config (some s0) env live := by
        simp only [run_cycle]
        rw [if_neg h1, if_pos h2]
      refine ⟨fun hcond => absurd h2 hcond.2.2, fun _ => ?_⟩
      rw [hr]
      exact (assessed_state_preserves config s0 env live).1
    · cases live with
      | false =>
        have hr : run_cycle config (some s0) env false =
            { assessed_state config (some s0) env false with
              cycle_count := (assessed_state config (some s0) env false).cycle_count + 1 } := by
          simp only [run_cycle]
          rw [if_neg h1, if_neg h2]
          simp
        refine ⟨fun hcond => Bool.noConfusion hcond.1, fun _ => ?_⟩
        rw [hr]
        exact (assessed_state_preserves config s0 env false).1
      | true =>
        have hr := run_cycle_live_eq config (some s0) env h1 h2
        have heps : (run_cycle config (some s0) env true).epsilon =
            max config.min_epsilon (s0.epsilon * config.epsilon_decay) := by
          rw [hr]
          show max config.min_epsilon
            ((apply_reward_updates _ _ _ _ _ _).epsilon * config.epsilon_decay) = _
          rw [(apply_reward_updates_preserves _ _ _ _ _ _).1,
            (assessed_state_preserves config s0 env true).1]
        exact ⟨fun _ => heps, fun hcond => absurd ⟨rfl, h1, h2⟩ hcond⟩

/-- With a nonnegative floor below the current epsilon and a decay factor
at most one, one cycle never raises epsilon and never sinks it below the
floor. -/
theorem run_cycle_epsilon_bounds (config : Config) (s0 : AutomatonState)
    (env : CycleEnv) (live : Bool) (h0 : 0 ≤ config.min_epsilon)
    (hd : config.epsilon_decay ≤ 1) (hm : config.min_epsilon ≤ s0.epsilon) :
    (run_cycle config (some s0) env live).epsilon ≤ s0.epsilon ∧
      config.min_epsilon ≤ (run_cycle config (some s0) env live).epsilon := by
  have hc := run_cycle_epsilon_cases config s0 env live
  by_cases hcond : live = true ∧
      (discovered_state config (some s0) env).skills ≠ [] ∧
      (assessed_state config (some s0) env live).tier ≠ Tier.dead
  · rw [hc.1 hcond]
    have hnn : (0 : ℚ) ≤ s0.epsilon := le_trans h0 hm
    have hdec : s0.epsilon * config.epsilon_decay ≤ s0.epsilon := by
      calc s0.epsilon * config.epsilon_decay ≤ s0.epsilon * 1 :=
            mul_le_mul_of_nonneg_left hd hnn
        _ = s0.epsilon := mul_one _
    exact ⟨max_le hm hdec, le_max_left _ _⟩
  · rw [hc.2 hcond]
    exact ⟨le_refl _, hm⟩

/-- Claim C3 (amended): epsilon is set to
`max(minEpsilon, epsilon × decayFactor)` exactly once per live cycle that
reaches the execution phase; on dry runs and on the no-skills and dead
early returns it is left unchanged — contrary to the claim, dry runs do
NOT decay epsilon.  Consequently, for a nonnegative `minEpsilon ≤ epsilon`
and `decayFactor ≤ 1`, epsilon is monotonically non-increasing across any
number of cycles and never drops below `minEpsilon`. -/
theorem epsilon_decay_amended (config : Config) (s0 : AutomatonState)
    (env : CycleEnv) (live : Bool) :
    ((live = true ∧ (discovered_state config (some s0) env).skills ≠ [] ∧
        (assessed_state config (some s0) env live).tier ≠ Tier.dead) →
      (run_cycle config (some s0) env live).epsilon =
        max config.min_epsilon (s0.epsilon * config.epsilon_decay)) ∧
    (¬ (live = true ∧ (discovered_state config (some s0) env).skills ≠ [] ∧
        (assessed_state config (some s0) env live).tier ≠ Tier.dead) →
      (run_cycle config (some s0) env live).epsilon = s0.epsilon) ∧
    (0 ≤ config.min_epsilon → config.epsilon_decay ≤ 1 →
      config.min_epsilon ≤ s0.epsilon →
      ∀ steps : List (CycleEnv × Bool),
        (iterate_cycles config s0 steps).epsilon ≤ s0.epsilon ∧
          config.min_epsilon ≤ (iterate_cycles config s0 steps).epsilon) := by
  refine ⟨(run_cycle_epsilon_cases config s0 env live).1,
    (run_cycle_epsilon_cases config s0 env live).2, ?_⟩
  intro h0 hd hm steps
  induction steps generalizing s0 with
  | nil => exact ⟨le_refl _, hm⟩
  | cons step rest ih =>
    have hstep := run_cycle_epsilon_bounds config s0 step.1 step.2 h0 hd hm
    have hrest := ih (run_cycle config (some s0) step.1 step.2) hstep.2
    exact ⟨le_trans hrest.1 hstep.1, hrest.2⟩

/-- Claim C3 counterexample: a dry (non-live) cycle that reaches the
selection phase leaves epsilon untouched at 0, whereas the claimed
unconditional decay would have produced
`max(0.05, 0 × 0.995) = 0.05 ≠ 0`. -/
theorem epsilon_no_decay_on_dry_run_counterexample :
    (run_cycle dry_config (some dry_state) dry_env false).epsilon = 0 ∧
    max dry_config.min_epsilon ((0 : ℚ) * dry_config.epsilon_decay) ≠ 0 := by
  constructor
  · have h1 : (discovered_state dry_config (some dry_state) dry_env).skills ≠ [] := by
      simp [discovered_state, reconcile_skills, sync_discovered, disable_missing,
        load_or_init, dry_config, dry_state, dry_env]
    have htier : (assessed_state dry_config (some dry_state) dry_env false).tier =
        Tier.normal := by
      norm_num [assessed_state, apply_tier, compute_tier, discovered_state,
        reconcile_skills, sync_discovered, disable_missing, load_or_init,
        dry_config, dry_state, dry_env, dry_record]
    have hr : run_cycle dry_config (some dry_state) dry_env false =
        { assessed_state dry_config (some dry_state) dry_env false with
          cycle_count :=
            (assessed_state dry_config (some dry_state) dry_env false).cycle_count + 1 } := by
      simp only [run_cycle]
      rw [if_neg h1, if_neg (by simp [htier])]
      simp
    rw [hr]
    show (assessed_state dry_config (some dry_state) dry_env false).epsilon = 0
    rw [(assessed_state_preserves dry_config dry_state dry_env false).1]
    rfl
  · norm_num [dry_config]

/-- The cycle counter after one cycle from a loaded state: bumped exactly
once when the cycle reaches the selection phase, untouched on the
no-skills and dead early returns. -/
theorem run_cycle_cycle_count_cases (config : Config) (s0 : AutomatonState)
    (env : CycleEnv) (live : Bool) :
    (((discovered_state config (some s0) env).skills ≠ [] ∧
        (assessed_state config (some s0) env live).tier ≠ Tier.dead) →
      (run_cycle config (some s0) env live).cycle_count = s0.cycle_count + 1) ∧
    (¬ ((discovered_state config (some s0) env).skills ≠ [] ∧
        (assessed_state config (some s0) env live).tier ≠ Tier.dead) →
      (run_cycle config (some s0) env live).cycle_count = s0.cycle_count) := by
  by_cases h1 : (discovered_state config (some s0) env).skills = []
  · have hr : run_cycle config (some s0) env live =
        discovered_state config (some s0) env := by
      simp only [run_cycle]
      rw [if_pos h1]
    refine ⟨fun hcond => absurd h1 hcond.1, fun _ => ?_⟩
    rw [hr]
    exact (discovered_state_preserves config s0 env).2
  · by_cases h2 : (assessed_state config (some s0) env live).tier = Tier.dead
    · have hr : run_cycle config (some s0) env live =
          assessed_state config (some s0) env live := by
        simp only [run_cycle]
        rw [if_neg h1, if_pos h2]
      refine ⟨fun hcond => absurd h2 hcond.2, fun _ => ?_⟩
      rw [hr]
      exact (assessed_state_preserves config s0 env live).2
    · refine ⟨fun _ => ?_, fun hcond => absurd ⟨h1, h2⟩ hcond⟩
      cases live with
      | false =>
        have hr : run_cycle config (some s0) env false =
            { assessed_state config (some s0) env false with
              cycle_count :=
                (assessed_state config (some s0) env false).cycle_count + 1 } := by
          simp only [run_cycle]
          rw [if_neg h1, if_neg h2]
          simp
        rw [hr]
        show (assessed_state config (some s0) env false).cycle_count + 1 = _
        rw [(assessed_state_preserves config s0 env false).2]
      | true =>
        rw [run_cycle_live_eq config (some s0) env h1 h2]
        show (apply_reward_updates _ _ _ _ _ _).cycle_count + 1 = _
        rw [(apply_reward_updates_preserves _ _ _ _ _ _).2,
          (assessed_state_preserves config s0 env true).2]

/-- Claim C7 (amended): from a loaded state, `cycleCount` is incremented
exactly once per cycle that reaches the selection phase — dry runs
included — and is NOT incremented on the "no skills" termination or the
dead termination (contrary to the claim's "including no-skills
terminations"); hence it never decreases and grows exactly with the
cycles that reach selection. -/
theorem cycle_count_increment_amended (config : Config) (s0 : AutomatonState)
    (env : CycleEnv) (live : Bool) :
    (((discovered_state config (some s0) env).skills ≠ [] ∧
        (assessed_state config (some s0) env live).tier ≠ Tier.dead) →
      (run_cycle config (some s0) env live).cycle_count = s0.cycle_count + 1) ∧
    (¬ ((discovered_state config (some s0) env).skills ≠ [] ∧
        (assessed_state config (some s0) env live).tier ≠ Tier.dead) →
      (run_cycle config (some s0) env live).cycle_count = s0.cycle_count) ∧
    s0.cycle_count ≤ (run_cycle config (some s0) env live).cycle_count := by
  refine ⟨(run_cycle_cycle_count_cases config s0 env live).1,
    (run_cycle_cycle_count_cases config s0 env live).2, ?_⟩
  by_cases hcond : (discovered_state config (some s0) env).skills ≠ [] ∧
      (assessed_state config (some s0) env live).tier ≠ Tier.dead
  · rw [(run_cycle_cycle_count_cases config s0 env live).1 hcond]
    omega
  · rw [(run_cycle_cycle_count_cases config s0 env live).2 hcond]

/-- Claim C7 counterexample: a completed "no skills" cycle (state holds
no records and the discovery pass is empty) leaves `cycleCount` at 3,
while the claim requires it to be incremented to 4. -/
theorem cycle_count_no_skills_counterexample :
    (discovered_state dry_config (some nosk_state) dry_env).skills = [] ∧
    (run_cycle dry_config (some nosk_state) dry_env false).cycle_count = 3 ∧
    nosk_state.cycle_count = 3 := by
  exact ⟨rfl, rfl, rfl⟩

/-- The bounded capture used by `run_skill`: the kept characters are the
last `min n (length)` ones, a suffix of the original stream; the empty
stream maps to the empty capture. -/
theorem lastChars_spec (n : ℕ) (s : String) :
    (if s ≠ "" then lastChars n s else "").data =
      s.data.drop (s.data.length - n) ∧
    ((if s ≠ "" then lastChars n s else "").data).length = min n s.data.length ∧
    (if s ≠ "" then lastChars n s else "").data <:+ s.data := by
  by_cases h : s = ""
  · subst h
    refine ⟨?_, ?_, ?_⟩ <;> simp [lastChars]
  · rw [if_pos h]
    refine ⟨rfl, ?_, ?_⟩
    · show (s.data.drop (s.data.length - n)).length = min n s.data.length
      rw [List.length_drop]
      omega
    · exact List.drop_suffix _ _

/-- Claim C8: `run_skill` reports success exactly for a zero exit code;
the captured output is the last 2000 characters of stdout and the last
1000 characters of stderr (a bounded suffix of each stream); a timeout is
reported as failure with return code −1 and the synthesized message
`Timeout: <slug> exceeded 120s`; a launch-level fault is reported as
failure with return code −1 and the exception text. -/
theorem run_skill_success_and_truncation (slug : String) :
    (∀ (rc : Int) (out err : String),
      (((run_skill slug (ProcOutcome.exited rc out err)).success = true) ↔ rc = 0) ∧
      (run_skill slug (ProcOutcome.exited rc out err)).returncode = rc ∧
      (run_skill slug (ProcOutcome.exited rc out err)).output.data =
        out.data.drop (out.data.length - 2000) ∧
      (run_skill slug (ProcOutcome.exited rc out err)).output.data.length =
        min 2000 out.data.length ∧
      (run_skill slug (ProcOutcome.exited rc out err)).output.data <:+ out.data ∧
      (run_skill slug (ProcOutcome.exited rc out err)).stderr.data =
        err.data.drop (err.data.length - 1000) ∧
      (run_skill slug (ProcOutcome.exited rc out err)).stderr.data.length =
        min 1000 err.data.length ∧
      (run_skill slug (ProcOutcome.exited rc out err)).stderr.data <:+ err.data) ∧
    run_skill slug ProcOutcome.timedOut =
      { success := false, returncode := -1, output := "",
        stderr := "Timeout: " ++ slug ++ " exceeded 120s" } ∧
    ∀ msg, run_skill slug (ProcOutcome.launchFault msg) =
      { success := false, returncode := -1, output := "", stderr := msg } := by
  refine ⟨?_, rfl, fun msg => rfl⟩
  intro rc out err
  have hout := lastChars_spec 2000 out
  have herr := lastChars_spec 1000 err
  exact ⟨beq_iff_eq, rfl, hout.1, hout.2.1, hout.2.2, herr.1, herr.2.1, herr.2.2⟩

/-- Claim C10: for a config option whose environment variable is set to a
value its declared-type parser cannot parse, `_load_config` silently
resolves the option to its built-in default — it neither aborts nor
reports an error — while the `--set` command path rejects the same
untypeable value with an error instead of ever producing a stored value. -/
theorem env_config_fallback {α : Type} (parse : String → Option α)
    (s : String) (dflt : α) (hset : s ≠ "") (hbad : parse s = none) :
    load_config_option none (some s) parse dflt = dflt ∧
    ∀ v : α, set_config_value parse s ≠ Except.ok v := by
  constructor
  · show (if s ≠ "" then (match parse s with | some v => v | none => dflt)
      else dflt) = dflt
    rw [if_pos hset, hbad]
  · intro v h
    unfold set_config_value at h
    rw [hbad] at h
    exact Except.noConfusion h

/-- Witness for claim C10 at a concrete unparseable value. -/
theorem env_config_fallback_witness :
    load_config_option none (some "not-a-float") (fun _ => (none : Option ℚ))
      (1/2) = 1/2 ∧
    ∀ v : ℚ, set_config_value (fun _ => (none : Option ℚ)) "not-a-float" ≠
      Except.ok v :=
  env_config_fallback (fun _ => none) "not-a-float" (1/2) (by decide) rfl

/-- The deterministic prefix oracle satisfies the `random.sample`
contract. -/
theorem noop_rand_sample_spec : SampleSpec noop_rand.sample := by
  intro l k hk
  refine ⟨?_, fun hnd => ?_, fun x hx => ?_⟩
  · show (l.take k).length = k
    rw [List.length_take]
    omega
  · exact List.Nodup.sublist (List.take_sublist _ _) hnd
  · exact List.take_subset _ _ hx

/-- The head oracle satisfies the `random.choice` contract. -/
theorem noop_rand_choice_spec : ChoiceSpec noop_rand.choice := by
  intro l hl
  cases l with
  | nil => exact absurd rfl hl
  | cons a as => exact List.mem_cons_self a as

/-- Witness for claim C1: the spec scenario budget 50, spent 0,
realized −46 (remaining fraction 0.08) computes tier critical. -/
theorem compute_tier_ordered_rules_witness :
    compute_tier c1_state 1 = Tier.critical := by
  have h := (compute_tier_ordered_rules c1_state 1).2 (by norm_num [c1_state])
  exact h.2.1.mpr ⟨⟨by norm_num [remainingFraction, c1_state],
    by norm_num [daysElapsed, c1_state]⟩,
    by norm_num [remainingFraction, c1_state]⟩

/-- Witness for claim C5 at a concrete two-skill state. -/
theorem select_skills_sound_witness :
    (select_skills mixed_state 2 noop_rand).length ≤ 2 ∧
    (select_skills mixed_state 2 noop_rand).Nodup ∧
    (∀ s ∈ select_skills mixed_state 2 noop_rand,
      ∃ rec, List.lookup s mixed_state.skills = some rec ∧ rec.enabled = true) ∧
    ((∀ p ∈ mixed_state.skills, p.2.enabled = false) →
      select_skills mixed_state 2 noop_rand = []) :=
  select_skills_sound mixed_state 2 noop_rand (by simp [mixed_state])
    noop_rand_sample_spec noop_rand_choice_spec

/-- Witness for claim C4 at a concrete state mixing an unplayed and a
played skill. -/
theorem select_skills_unplayed_first_witness :
    (mixed_state.skills.map Prod.fst).Nodup ∧
    (∀ p ∈ select_skills mixed_state 2 noop_rand,
      (lookupRec (mixed_state.skills.filter fun q => q.2.enabled) p).times_selected ≠ 0 →
      ∀ u ∈ (mixed_state.skills.filter fun q => q.2.enabled).map Prod.fst,
        (lookupRec (mixed_state.skills.filter fun q => q.2.enabled) u).times_selected = 0 →
        u ∈ select_skills mixed_state 2 noop_rand) :=
  ⟨by simp [mixed_state],
    select_skills_unplayed_first mixed_state 2 noop_rand (by simp [mixed_state])
      noop_rand_sample_spec⟩

/-- Witness for claim C6 (amended) at the rediscovery scenario. -/
theorem reconcile_enabled_amended_witness :
    (∀ s : String, s ∉ c6_discovered.map DiscoveredSkill.slug →
      List.lookup s (reconcile_skills c6_state c6_discovered).skills =
        (List.lookup s c6_state.skills).map fun r => { r with enabled := false }) ∧
    (∀ d ∈ c6_discovered, List.lookup d.slug c6_state.skills = none →
      List.lookup d.slug (reconcile_skills c6_state c6_discovered).skills =
        some (fresh_record d)) ∧
    (∀ d ∈ c6_discovered, ∀ r, List.lookup d.slug c6_state.skills = some r →
      List.lookup d.slug (reconcile_skills c6_state c6_discovered).skills =
        some { r with source_tag := d.source_tag, entrypoint := d.entrypoint }) ∧
    (∀ s r, List.lookup s c6_state.skills = some r →
      ∃ r', List.lookup s (reconcile_skills c6_state c6_discovered).skills =
        some r') :=
  reconcile_enabled_amended c6_state c6_discovered (by simp [c6_discovered])

/-- Witness for claim C7 (amended): on the concrete no-skills
termination the counter is left unchanged. -/
theorem cycle_count_increment_amended_witness :
    (run_cycle dry_config (some nosk_state) dry_env false).cycle_count =
      nosk_state.cycle_count :=
  (cycle_count_increment_amended dry_config nosk_state dry_env false).2.1
    (fun hcond => hcond.1 rfl)

/-- Witness for claim C3 (amended): the concrete dry cycle leaves
epsilon untouched. -/
theorem epsilon_decay_amended_witness :
    (run_cycle dry_config (some dry_state) dry_env false).epsilon =
      dry_state.epsilon :=
  (epsilon_decay_amended dry_config dry_state dry_env false).2.1 (by simp)

/-- Witness for claim C8 at the timeout outcome. -/
theorem run_skill_success_and_truncation_witness :
    run_skill "alpha" ProcOutcome.timedOut =
      { success := false, returncode := -1, output := "",
        stderr := "Timeout: " ++ "alpha" ++ " exceeded 120s" } :=
  (run_skill_success_and_truncation "alpha").2.1

/-- Witness for claim C2: the concrete failing live run leaves the
selected skill's record untouched. -/
theorem live_cycle_reward_iff_success_witness :
    ∃ r', List.lookup "alpha"
        (run_cycle dry_config (some dry_state) c2_env true).skills = some r' ∧
      r'.times_selected = dry_record.times_selected +
        (if resultSuccess (c2_env.run_results "alpha") then 1 else 0) ∧
      r'.total_pnl = dry_record.total_pnl +
        (if resultSuccess (c2_env.run_results "alpha") then
          c2_env.pnl_after dry_record.source_tag -
            c2_env.pnl_before dry_record.source_tag else 0) ∧
      (resultSuccess (c2_env.run_results "alpha") = true →
        r' = bump_record dry_record
          (c2_env.pnl_after dry_record.source_tag -
            c2_env.pnl_before dry_record.source_tag) c2_env.now ∧
        r'.times_rewarded = dry_record.times_rewarded +
          (if c2_env.pnl_after dry_record.source_tag -
            c2_env.pnl_before dry_record.source_tag > 0 then 1 else 0) ∧
        r'.last_run = some c2_env.now) ∧
      (resultSuccess (c2_env.run_results "alpha") = false → r' = dry_record) := by
  have hds : discovered_state dry_config (some dry_state) c2_env = dry_state := by
    decide
  have htier : compute_tier dry_state c2_env.now = Tier.normal := by
    norm_num [compute_tier, dry_state, c2_env]
  have happ : apply_tier dry_state c2_env.now = dry_state := by
    simp only [apply_tier]
    rw [htier, if_neg (by simp [dry_state])]
    rfl
  have hrefresh : ({ dry_state with
      unrealized_pnl := c2_env.unrealized_snapshot
      realized_pnl := c2_env.realized_snapshot } : AutomatonState) = dry_state := by
    decide
  have hst4 : assessed_state dry_config (some dry_state) c2_env true = dry_state := by
    rw [show assessed_state dry_config (some dry_state) c2_env true =
        apply_tier { discovered_state dry_config (some dry_state) c2_env with
          unrealized_pnl := c2_env.unrealized_snapshot
          realized_pnl := c2_env.realized_snapshot } c2_env.now from rfl,
      hds, hrefresh]
    exact happ
  exact live_cycle_reward_iff_success dry_config dry_state c2_env "alpha" dry_record
    (by decide)
    (by rw [show c2_env.rand = noop_rand from rfl]; exact noop_rand_sample_spec)
    (by rw [show c2_env.rand = noop_rand from rfl]; exact noop_rand_choice_spec)
    (by rw [hds]; decide) (by rw [hst4]; decide) (by rw [hst4]; decide)
    (by rw [hst4]; rfl)

/-!
Persistence layer for claim C9.  `save_state` / `load_state` wrap the
standard JSON codec (`json.dump(state, f, indent=2)` / `json.load(f)`),
which is not part of this repository.  Modelled from the spec: the state
document is "serialized as a self-describing structured document" with
pretty-printing, and the codec is modelled as a JSON value type with a
faithful indent-2 serializer and a parser.  Numbers are decimal
(sign, integer part, optional fraction digits), matching the repr-based
number round-trip of the Python codec; well-formedness (`wfJson`)
restricts strings to characters that the Python encoder emits verbatim
(no `"`ancy escapes) and fraction digits to 0–9.
-/

/-- Characters produced by `digitChar` are plain digits: not whitespace,
not a structural character, and decoded back by `charDigit` when in
range. -/
theorem digitChar_props (d : ℕ) :
    isWsChar (digitChar d) = false ∧ (charDigit (digitChar d)).isSome ∧
    digitChar d ≠ ']' ∧ digitChar d ≠ ',' ∧ digitChar d ≠ '.' ∧
    digitChar d ≠ '"' ∧ digitChar d ≠ braceClose := by
  rcases d with _|_|_|_|_|_|_|_|_|d
  case succ.succ.succ.succ.succ.succ.succ.succ.succ =>
    exact (by decide :
      isWsChar '9' = false ∧ (charDigit '9').isSome ∧ '9' ≠ ']' ∧ '9' ≠ ',' ∧
      '9' ≠ '.' ∧ '9' ≠ '"' ∧ '9' ≠ braceClose)
  all_goals decide

/-- Decoding after encoding a digit below ten. -/
theorem charDigit_digitChar (d : ℕ) (h : d < 10) :
    charDigit (digitChar d) = some d := by
  interval_cases d <;> rfl

/-- Skipping whitespace passes over a whitespace prefix. -/
theorem skipWs_all_ws (w : List Char) (h : w.all isWsChar = true) :
    ∀ l, skipWs (w ++ l) = skipWs l := by
  induction w with
  | nil => intro l; rfl
  | cons c cs ih =>
    intro l
    rw [List.all_cons, Bool.and_eq_true] at h
    show skipWs (c :: (cs ++ l)) = skipWs l
    rw [skipWs, if_pos h.1]
    exact ih h.2 l

/-- Skipping whitespace stops at a non-whitespace head. -/
theorem skipWs_not_ws (c : Char) (l : List Char) (h : isWsChar c = false) :
    skipWs (c :: l) = c :: l := by
  rw [skipWs, if_neg (by simp [h])]

/-- The indentation run is all whitespace. -/
theorem indentChars_all_ws (n : ℕ) : (indentChars n).all isWsChar = true := by
  induction n with
  | zero => rfl
  | succ k ih =>
    show (List.replicate (k + 1) ' ').all isWsChar = true
    rw [List.replicate_succ, List.all_cons,
      show isWsChar ' ' = true from rfl, Bool.true_and]
    exact ih

/-- A string body with no quote character parses back exactly. -/
theorem parseStringBody_append (s : List Char) (h : ∀ c ∈ s, c ≠ '"')
    (rest : List Char) :
    parseStringBody (s ++ '"' :: rest) = some (s, rest) := by
  induction s with
  | nil => rfl
  | cons c cs ih =>
    show parseStringBody (c :: (cs ++ '"' :: rest)) = _
    rw [parseStringBody, if_neg (by simpa using h c (List.mem_cons_self c cs))]
    rw [ih (fun x hx => h x (List.mem_cons_of_mem c hx))]

/-- A run of encoded digits parses back exactly, stopping at the first
non-digit. -/
theorem takeDigits_map (ds : List ℕ) (h : ∀ d ∈ ds, d < 10)
    (rest : List Char)
    (hrest : ∀ c l, rest = c :: l → charDigit c = none) :
    takeDigits (ds.map digitChar ++ rest) = (ds, rest) := by
  induction ds with
  | nil =>
    cases rest with
    | nil => rfl
    | cons c l =>
      show takeDigits (c :: l) = ([], c :: l)
      rw [takeDigits, hrest c l rfl]
  | cons d ds' ih =>
    show takeDigits (digitChar d :: (ds'.map digitChar ++ rest)) = _
    rw [takeDigits, charDigit_digitChar d (h d (List.mem_cons_self d ds')),
      ih (fun x hx => h x (List.mem_cons_of_mem d hx))]

/-- Appending a digit multiplies the accumulated value by ten. -/
theorem digitsToNat_append (l : List ℕ) (d : ℕ) :
    digitsToNat (l ++ [d]) = 10 * digitsToNat l + d := by
  simp [digitsToNat, List.foldl_append]

/-- The big-endian digit value agrees with `Nat.ofDigits` on the
little-endian digits. -/
theorem digitsToNat_reverse (l : List ℕ) :
    digitsToNat l.reverse = Nat.ofDigits 10 l := by
  induction l with
  | nil => rfl
  | cons d t ih =>
    rw [List.reverse_cons, digitsToNat_append, ih, Nat.ofDigits_cons]
    omega

/-- The decimal encoding of a natural number: a nonempty digit list in
range whose value is the number. -/
theorem natChars_spec (n : ℕ) :
    ∃ ds : List ℕ, natChars n = ds.map digitChar ∧ ds ≠ [] ∧
      (∀ d ∈ ds, d < 10) ∧ digitsToNat ds = n := by
  by_cases h : n = 0
  · subst h
    exact ⟨[0], rfl, by simp, by simp, rfl⟩
  · refine ⟨(Nat.digits 10 n).reverse, by simp [natChars, h], ?_, ?_, ?_⟩
    · simp [Nat.digits_ne_nil_iff_ne_zero.mpr h]
    · intro d hd
      rw [List.mem_reverse] at hd
      exact Nat.digits_lt_base (by norm_num) hd
    · rw [digitsToNat_reverse]
      exact Nat.ofDigits_digits 10 n

/-- Without a following dot, a number ends after its integer digits. -/
theorem parseNumTail_not_dot (neg : Bool) (ds : List ℕ) (rest : List Char)
    (hdot : ∀ l, rest ≠ '.' :: l) :
    parseNumTail neg ds rest =
      some (Json.jnum neg (digitsToNat ds) [], rest) := by
  unfold parseNumTail
  split
  · rename_i a b
    exact absurd rfl (hdot b)
  · rfl

/-- A dot followed by encoded fraction digits parses back exactly. -/
theorem parseNumTail_dot (neg : Bool) (ds : List ℕ) (fd : ℕ) (fds : List ℕ)
    (hwf : ∀ d ∈ fd :: fds, d < 10) (rest : List Char)
    (hdigit : ∀ c l, rest = c :: l → charDigit c = none) :
    parseNumTail neg ds ('.' :: ((fd :: fds).map digitChar ++ rest)) =
      some (Json.jnum neg (digitsToNat ds) (fd :: fds), rest) := by
  show (match takeDigits ((fd :: fds).map digitChar ++ rest) with
    | ([], _) => none
    | (fs, rest3) => some (Json.jnum neg (digitsToNat ds) fs, rest3)) = _
  rw [takeDigits_map (fd :: fds) hwf rest hdigit]

/-- A serialized decimal number parses back exactly when followed by a
delimiter. -/
theorem parseNumBody_ser (neg : Bool) (ip : ℕ) (frac : List ℕ)
    (hwf : ∀ d ∈ frac, d < 10) (rest : List Char)
    (hrest : numDelim rest = true) :
    parseNumBody neg (natChars ip ++
      (match frac with
       | [] => []
       | d :: ds => '.' :: (digitChar d :: ds.map digitChar)) ++ rest) =
      some (Json.jnum neg ip frac, rest) := by
  obtain ⟨ds, hser, hne, hlt, hval⟩ := natChars_spec ip
  have hdigit : ∀ c l, rest = c :: l → charDigit c = none := by
    intro c l he
    rw [he] at hrest
    simp only [numDelim, Bool.and_eq_true, Option.isNone_iff_eq_none] at hrest
    exact hrest.1
  have hdot : ∀ l, rest ≠ '.' :: l := by
    intro l he
    rw [he] at hrest
    simp [numDelim] at hrest
  have hpb : ∀ (input : List Char) (res : List ℕ × List Char),
      takeDigits input = res →
      parseNumBody neg input =
        (match res with
         | ([], _) => none
         | (dd, r) => parseNumTail neg dd r) := by
    intro input res h
    unfold parseNumBody
    rw [h]
  cases frac with
  | nil =>
    simp only [hser, List.append_nil]
    rw [hpb (ds.map digitChar ++ rest) (ds, rest)
      (takeDigits_map ds hlt rest hdigit)]
    cases ds with
    | nil => exact absurd rfl hne
    | cons d0 dt =>
      show parseNumTail neg (d0 :: dt) rest = _
      rw [parseNumTail_not_dot neg (d0 :: dt) rest hdot, hval]
  | cons fd fds =>
    simp only [hser]
    rw [show (List.map digitChar ds ++ '.' :: (digitChar fd :: List.map digitChar fds)) ++ rest =
      List.map digitChar ds ++ ('.' :: ((fd :: fds).map digitChar ++ rest)) from by
        simp]
    rw [hpb (ds.map digitChar ++ ('.' :: ((fd :: fds).map digitChar ++ rest)))
      (ds, '.' :: ((fd :: fds).map digitChar ++ rest))
      (takeDigits_map ds hlt _ (fun c l he => by
        rw [← (List.cons_eq_cons.mp he).1]; rfl))]
    cases ds with
    | nil => exact absurd rfl hne
    | cons d0 dt =>
      show parseNumTail neg (d0 :: dt) ('.' :: ((fd :: fds).map digitChar ++ rest)) = _
      rw [parseNumTail_dot neg (d0 :: dt) fd fds hwf rest hdigit, hval]

/-- A newline followed by an indentation run is all whitespace. -/
theorem nlIndent_ws (n : ℕ) :
    ('\n' :: indentChars n).all isWsChar = true := by
  rw [List.all_cons, indentChars_all_ws]
  decide

/-- Every serialized document starts with a non-whitespace character
that is not a closing bracket. -/
theorem serJson_head (lvl : ℕ) (j : Json) :
    ∃ c cs, serJson lvl j = c :: cs ∧ isWsChar c = false ∧ c ≠ ']' := by
  cases j with
  | jnull =>
    exact ⟨'n', ['u', 'l', 'l'], by simp only [serJson], by decide, by decide⟩
  | jbool b =>
    cases b with
    | true =>
      exact ⟨'t', ['r', 'u', 'e'], by simp only [serJson], by decide, by decide⟩
    | false =>
      exact ⟨'f', ['a', 'l', 's', 'e'], by simp only [serJson], by decide,
        by decide⟩
  | jnum neg ip frac =>
    cases neg with
    | true =>
      refine ⟨'-', natChars ip ++ (match frac with
        | [] => []
        | d :: ds => '.' :: (digitChar d :: ds.map digitChar)), ?_,
        by decide, by decide⟩
      simp only [serJson, serNum]
      rfl
    | false =>
      obtain ⟨ds, hser, hne, hlt, _⟩ := natChars_spec ip
      cases ds with
      | nil => exact absurd rfl hne
      | cons d0 dt =>
        obtain ⟨hws, _, hrb, _, _, _, _⟩ := digitChar_props d0
        refine ⟨digitChar d0, dt.map digitChar ++ (match frac with
          | [] => []
          | d :: ds => '.' :: (digitChar d :: ds.map digitChar)), ?_, hws, hrb⟩
        simp only [serJson, serNum]
        rw [hser]
        rfl
  | jstr s =>
    exact ⟨'"', s ++ ['"'], by simp only [serJson], by decide, by decide⟩
  | jarr elems =>
    cases elems with
    | nil => exact ⟨'[', [']'], by simp only [serJson], by decide, by decide⟩
    | cons x xs =>
      exact ⟨'[', serArrItems (lvl + 1) x xs ++
        '\n' :: (indentChars (2 * lvl) ++ [']']),
        by simp only [serJson], by decide, by decide⟩
  | jobj fields =>
    cases fields with
    | nil =>
      exact ⟨braceOpen, [braceClose], by simp only [serJson], by decide,
        by decide⟩
    | cons fkv fs =>
      obtain ⟨k, v⟩ := fkv
      exact ⟨braceOpen, serObjItems (lvl + 1) k v fs ++
        '\n' :: (indentChars (2 * lvl) ++ [braceClose]),
        by simp only [serJson], by decide, by decide⟩

/-- The serialized items of an array: a whitespace run, the first item,
then the tail. -/
theorem serArrItems_shape (lvl : ℕ) (x : Json) (xs : List Json) :
    serArrItems lvl x xs =
      ('\n' :: indentChars (2 * lvl)) ++
        (serJson lvl x ++ serArrTail lvl xs) := by
  rw [serArrItems.eq_def]
  cases xs with
  | nil => simp [serArrTail]
  | cons y ys => simp [serArrTail]

/-- The serialized fields of an object: a whitespace run, the quoted
first key, a colon, a space, the first value, then the tail. -/
theorem serObjItems_shape (lvl : ℕ) (k : List Char) (v : Json)
    (fs : List (List Char × Json)) :
    serObjItems lvl k v fs =
      ('\n' :: indentChars (2 * lvl)) ++
        ('"' :: (k ++ ('"' :: (':' :: (' ' ::
          (serJson lvl v ++ serObjTail lvl fs)))))) := by
  rw [serObjItems.eq_def]
  cases fs with
  | nil => simp [serObjTail]
  | cons f2 gs =>
    obtain ⟨k2, v2⟩ := f2
    simp [serObjTail]

/-- A serialized document is nonempty. -/
theorem serJson_length_pos (lvl : ℕ) (j : Json) :
    1 ≤ (serJson lvl j).length := by
  obtain ⟨c, cs, h, _, _⟩ := serJson_head lvl j
  rw [h]
  simp

/-- Serialized array items are nonempty. -/
theorem serArrItems_length_pos (lvl : ℕ) (x : Json) (xs : List Json) :
    1 ≤ (serArrItems lvl x xs).length := by
  rw [serArrItems.eq_def]
  simp

/-- Serialized object fields are nonempty. -/
theorem serObjItems_length_pos (lvl : ℕ) (k : List Char) (v : Json)
    (fs : List (List Char × Json)) :
    1 ≤ (serObjItems lvl k v fs).length := by
  rw [serObjItems.eq_def]
  simp

/-- Length of a single serialized array item. -/
theorem serArrItems_len_nil (lvl : ℕ) (x : Json) :
    (serArrItems lvl x []).length = 2 * lvl + (serJson lvl x).length + 1 := by
  rw [serArrItems.eq_def]
  simp only [List.length_cons, List.length_append, indentChars,
    List.length_replicate, List.length_nil]

/-- Length of serialized array items with a successor. -/
theorem serArrItems_len_cons (lvl : ℕ) (x y : Json) (ys : List Json) :
    (serArrItems lvl x (y :: ys)).length =
      2 * lvl + (serJson lvl x).length + (serArrItems lvl y ys).length + 2 := by
  rw [serArrItems.eq_def]
  simp only [List.length_cons, List.length_append, indentChars,
    List.length_replicate]
  omega

/-- Length of a single serialized object field. -/
theorem serObjItems_len_nil (lvl : ℕ) (k : List Char) (v : Json) :
    (serObjItems lvl k v []).length =
      2 * lvl + k.length + (serJson lvl v).length + 5 := by
  rw [serObjItems.eq_def]
  simp only [List.length_cons, List.length_append, indentChars,
    List.length_replicate, List.length_nil]
  omega

/-- Length of serialized object fields with a successor. -/
theorem serObjItems_len_cons (lvl : ℕ) (k : List Char) (v : Json)
    (k2 : List Char) (v2 : Json) (gs : List (List Char × Json)) :
    (serObjItems lvl k v ((k2, v2) :: gs)).length =
      2 * lvl + k.length + (serJson lvl v).length +
        (serObjItems lvl k2 v2 gs).length + 6 := by
  rw [serObjItems.eq_def]
  simp only [List.length_cons, List.length_append, indentChars,
    List.length_replicate]
  omega

/-- Length of a serialized nonempty array. -/
theorem serJson_arr_len (lvl : ℕ) (x : Json) (xs : List Json) :
    (serJson lvl (Json.jarr (x :: xs))).length =
      (serArrItems (lvl + 1) x xs).length + 2 * lvl + 3 := by
  simp only [serJson]
  simp only [List.length_cons, List.length_append, indentChars,
    List.length_replicate, List.length_singleton, List.length_nil]
  omega

/-- Length of a serialized nonempty object. -/
theorem serJson_obj_len (lvl : ℕ) (k : List Char) (v : Json)
    (fs : List (List Char × Json)) :
    (serJson lvl (Json.jobj ((k, v) :: fs))).length =
      (serObjItems (lvl + 1) k v fs).length + 2 * lvl + 3 := by
  simp only [serJson]
  simp only [List.length_cons, List.length_append, indentChars,
    List.length_replicate, List.length_singleton, List.length_nil]
  omega

/-- The value parser ignores a leading whitespace run. -/
theorem pv_ws (f : ℕ) (w input : List Char) (h : w.all isWsChar = true) :
    parseValue (f + 1) (w ++ input) = parseValue (f + 1) input := by
  simp only [parseValue]
  rw [skipWs_all_ws w h input]

/-- Parsing a serialized `null`. -/
theorem pv_null (f : ℕ) (rest : List Char) :
    parseValue (f + 1) ('n' :: ('u' :: ('l' :: ('l' :: rest)))) =
      some (Json.jnull, rest) := rfl

/-- Parsing a serialized `true`. -/
theorem pv_btrue (f : ℕ) (rest : List Char) :
    parseValue (f + 1) ('t' :: ('r' :: ('u' :: ('e' :: rest)))) =
      some (Json.jbool true, rest) := rfl

/-- Parsing a serialized `false`. -/
theorem pv_bfalse (f : ℕ) (rest : List Char) :
    parseValue (f + 1) ('f' :: ('a' :: ('l' :: ('s' :: ('e' :: rest))))) =
      some (Json.jbool false, rest) := rfl

/-- Parsing a serialized string without escapes. -/
theorem pv_quote (f : ℕ) (s rest : List Char) (h : ∀ c ∈ s, c ≠ '"') :
    parseValue (f + 1) ('"' :: (s ++ '"' :: rest)) =
      some (Json.jstr s, rest) := by
  have hb : parseValue (f + 1) ('"' :: (s ++ '"' :: rest)) =
      (match parseStringBody (s ++ '"' :: rest) with
       | none => none
       | some (t, r) => some (Json.jstr t, r)) := rfl
  rw [hb, parseStringBody_append s h rest]

/-- Parsing a serialized decimal number followed by a delimiter. -/
theorem pv_num (f : ℕ) (neg : Bool) (ip : ℕ) (frac : List ℕ)
    (hfr : ∀ d ∈ frac, d < 10) (rest : List Char)
    (hrest : numDelim rest = true) :
    parseValue (f + 1) (serNum neg ip frac ++ rest) =
      some (Json.jnum neg ip frac, rest) := by
  cases neg with
  | true =>
    cases frac with
    | nil =>
      have hp := parseNumBody_ser true ip [] hfr rest hrest
      dsimp only [] at hp
      have hb : parseValue (f + 1) (serNum true ip [] ++ rest) =
          parseNumBody true ((natChars ip ++ []) ++ rest) := rfl
      rw [hb]
      exact hp
    | cons fd fds =>
      have hp := parseNumBody_ser true ip (fd :: fds) hfr rest hrest
      dsimp only [] at hp
      have hb : parseValue (f + 1) (serNum true ip (fd :: fds) ++ rest) =
          parseNumBody true ((natChars ip ++
            ('.' :: (digitChar fd :: List.map digitChar fds))) ++ rest) := rfl
      rw [hb]
      exact hp
  | false =>
    obtain ⟨ds, hser, hne, hlt, _⟩ := natChars_spec ip
    cases ds with
    | nil => exact absurd rfl hne
    | cons d0 dt =>
      have hd0 : d0 < 10 := hlt d0 (List.mem_cons_self d0 dt)
      cases frac with
      | nil =>
        have hp := parseNumBody_ser false ip [] hfr rest hrest
        dsimp only [] at hp
        rw [hser] at hp
        rw [show serNum false ip [] ++ rest = (natChars ip ++ []) ++ rest
          from rfl, hser]
        interval_cases d0 <;> exact hp
      | cons fd fds =>
        have hp := parseNumBody_ser false ip (fd :: fds) hfr rest hrest
        dsimp only [] at hp
        rw [hser] at hp
        rw [show serNum false ip (fd :: fds) ++ rest =
          (natChars ip ++ ('.' :: (digitChar fd :: List.map digitChar fds))) ++
            rest from rfl, hser]
        interval_cases d0 <;> exact hp

/-- The value parser on an opening square bracket. -/
theorem pv_bracket (f : ℕ) (cs : List Char) :
    parseValue (f + 1) ('[' :: cs) =
      (match skipWs cs with
       | ']' :: rest => some (Json.jarr [], rest)
       | _ =>
         match parseArrItems f cs with
         | none => none
         | some (xs, rest) => some (Json.jarr xs, rest)) := rfl

/-- The value parser on an opening brace. -/
theorem pv_brace (f : ℕ) (cs : List Char) :
    parseValue (f + 1) (braceOpen :: cs) =
      (match skipWs cs with
       | [] => none
       | bc :: rest =>
         if bc = braceClose then some (Json.jobj [], rest)
         else
           match parseObjItems f cs with
           | none => none
           | some (fs, rest) => some (Json.jobj fs, rest)) := rfl

/-- One step of the array-items parser, given the parsed first item. -/
theorem paStep (f : ℕ) (input r1 : List Char) (x : Json)
    (h : parseValue f input = some (x, r1)) :
    parseArrItems (f + 1) input =
      (match skipWs r1 with
       | ',' :: more =>
         (match parseArrItems f more with
          | none => none
          | some (l, r) => some (x :: l, r))
       | ']' :: more => some ([x], more)
       | _ => none) := by
  simp only [parseArrItems]
  rw [h]

/-- One step of the object-fields parser, given the parsed first key. -/
theorem poStep (f : ℕ) (input cs key r2 : List Char)
    (h1 : skipWs input = '"' :: cs)
    (h2 : parseStringBody cs = some (key, r2)) :
    parseObjItems (f + 1) input =
      (match skipWs r2 with
       | ':' :: rest2 =>
         (match parseValue f rest2 with
          | none => none
          | some (v, rest3) =>
            match skipWs rest3 with
            | ',' :: more =>
              (match parseObjItems f more with
               | none => none
               | some (l, r) => some ((key, v) :: l, r))
            | bc :: more =>
              if bc = braceClose then some ([(key, v)], more) else none
            | [] => none)
       | _ => none) := by
  simp only [parseObjItems]
  rw [h1]
  split
  · rename_i cs2 heq
    injection heq with h1a h1b
    subst h1b
    rw [h2]
  · rename_i x hne
    exact absurd rfl (hne cs)

/-- The parser inverts the serializer: values, array items and object
fields, simultaneously, once the fuel covers the serialized length. -/
theorem parse_ser_all (fuel : ℕ) :
    (∀ lvl j w rest, wfJson j = true → w.all isWsChar = true →
      numDelim rest = true → (serJson lvl j).length ≤ fuel →
      parseValue fuel (w ++ (serJson lvl j ++ rest)) = some (j, rest)) ∧
    (∀ lvl x xs m rest, wfJson x = true → wfArr xs = true →
      (serArrItems lvl x xs).length ≤ fuel →
      parseArrItems fuel (serArrItems lvl x xs ++
        ('\n' :: (indentChars m ++ (']' :: rest)))) = some (x :: xs, rest)) ∧
    (∀ lvl k v fs m rest, k.all wfStrChar = true → wfJson v = true →
      wfObj fs = true → (serObjItems lvl k v fs).length ≤ fuel →
      parseObjItems fuel (serObjItems lvl k v fs ++
        ('\n' :: (indentChars m ++ (braceClose :: rest)))) =
        some ((k, v) :: fs, rest)) := by
  induction fuel with
  | zero =>
    refine ⟨?_, ?_, ?_⟩
    · intro lvl j w rest _ _ _ hlen
      exact absurd hlen (by have := serJson_length_pos lvl j; omega)
    · intro lvl x xs m rest _ _ hlen
      exact absurd hlen (by have := serArrItems_length_pos lvl x xs; omega)
    · intro lvl k v fs m rest _ _ _ hlen
      exact absurd hlen (by have := serObjItems_length_pos lvl k v fs; omega)
  | succ f ih =>
    obtain ⟨ih1, ih2, ih3⟩ := ih
    refine ⟨?_, ?_, ?_⟩
    · intro lvl j w rest hwf hw hrest hlen
      rw [pv_ws f w _ hw]
      cases j with
      | jnull =>
        rw [show serJson lvl Json.jnull ++ rest =
          'n' :: ('u' :: ('l' :: ('l' :: rest))) from by simp [serJson]]
        exact pv_null f rest
      | jbool b =>
        cases b with
        | true =>
          rw [show serJson lvl (Json.jbool true) ++ rest =
            't' :: ('r' :: ('u' :: ('e' :: rest))) from by simp [serJson]]
          exact pv_btrue f rest
        | false =>
          rw [show serJson lvl (Json.jbool false) ++ rest =
            'f' :: ('a' :: ('l' :: ('s' :: ('e' :: rest)))) from by
              simp [serJson]]
          exact pv_bfalse f rest
      | jnum neg ip frac =>
        have hfr : ∀ d ∈ frac, d < 10 := by
          simp only [wfJson, List.all_eq_true, decide_eq_true_eq] at hwf
          exact hwf
        rw [show serJson lvl (Json.jnum neg ip frac) ++ rest =
          serNum neg ip frac ++ rest from by simp [serJson]]
        exact pv_num f neg ip frac hfr rest hrest
      | jstr s =>
        have hs : ∀ c ∈ s, c ≠ '"' := by
          simp only [wfJson, List.all_eq_true] at hwf
          intro c hc
          have h := hwf c hc
          simp only [wfStrChar, Bool.and_eq_true, decide_eq_true_eq] at h
          exact h.1.1
        rw [show serJson lvl (Json.jstr s) ++ rest =
          '"' :: (s ++ '"' :: rest) from by simp [serJson]]
        exact pv_quote f s rest hs
      | jarr elems =>
        cases elems with
        | nil =>
          rw [show serJson lvl (Json.jarr []) ++ rest =
            '[' :: (']' :: rest) from by simp [serJson]]
          rw [pv_bracket]
          rw [skipWs_not_ws ']' rest (by decide)]
          rfl
        | cons x xs =>
          simp only [wfJson, wfArr, Bool.and_eq_true] at hwf
          obtain ⟨hwx, hwxs⟩ := hwf
          rw [serJson_arr_len] at hlen
          rw [show serJson lvl (Json.jarr (x :: xs)) ++ rest =
            '[' :: (serArrItems (lvl + 1) x xs ++
              ('\n' :: (indentChars (2 * lvl) ++ (']' :: rest)))) from by
                simp [serJson]]
          rw [pv_bracket]
          obtain ⟨c0, cs0, hhead, hws0, hne0⟩ := serJson_head (lvl + 1) x
          have hskip : skipWs (serArrItems (lvl + 1) x xs ++
              ('\n' :: (indentChars (2 * lvl) ++ (']' :: rest)))) =
              c0 :: (cs0 ++ (serArrTail (lvl + 1) xs ++
                ('\n' :: (indentChars (2 * lvl) ++ (']' :: rest))))) := by
            rw [serArrItems_shape, hhead]
            rw [show (('\n' :: indentChars (2 * (lvl + 1))) ++
              ((c0 :: cs0) ++ serArrTail (lvl + 1) xs)) ++
                ('\n' :: (indentChars (2 * lvl) ++ (']' :: rest))) =
              ('\n' :: indentChars (2 * (lvl + 1))) ++
                (c0 :: (cs0 ++ (serArrTail (lvl + 1) xs ++
                  ('\n' :: (indentChars (2 * lvl) ++ (']' :: rest)))))) from by
                    simp]
            rw [skipWs_all_ws _ (nlIndent_ws _), skipWs_not_ws c0 _ hws0]
          rw [hskip]
          split
          · rename_i r heq
            injection heq with ha hb
            exact absurd ha hne0
          · rw [ih2 (lvl + 1) x xs (2 * lvl) rest hwx hwxs (by omega)]
      | jobj fields =>
        cases fields with
        | nil =>
          rw [show serJson lvl (Json.jobj []) ++ rest =
            braceOpen :: (braceClose :: rest) from by simp [serJson]]
          rw [pv_brace]
          rw [skipWs_not_ws braceClose rest (by decide)]
          rfl
        | cons fkv fs =>
          obtain ⟨k, v⟩ := fkv
          simp only [wfJson, wfObj, Bool.and_eq_true] at hwf
          obtain ⟨⟨hk, hv⟩, hfs⟩ := hwf
          rw [serJson_obj_len] at hlen
          rw [show serJson lvl (Json.jobj ((k, v) :: fs)) ++ rest =
            braceOpen :: (serObjItems (lvl + 1) k v fs ++
              ('\n' :: (indentChars (2 * lvl) ++ (braceClose :: rest))))
            from by simp [serJson]]
          rw [pv_brace]
          have hskip : skipWs (serObjItems (lvl + 1) k v fs ++
              ('\n' :: (indentChars (2 * lvl) ++ (braceClose :: rest)))) =
              '"' :: ((k ++ ('"' :: (':' :: (' ' ::
                (serJson (lvl + 1) v ++ serObjTail (lvl + 1) fs))))) ++
                ('\n' :: (indentChars (2 * lvl) ++ (braceClose :: rest)))) := by
            rw [serObjItems_shape]
            rw [show (('\n' :: indentChars (2 * (lvl + 1))) ++
              ('"' :: (k ++ ('"' :: (':' :: (' ' ::
                (serJson (lvl + 1) v ++ serObjTail (lvl + 1) fs))))))) ++
                ('\n' :: (indentChars (2 * lvl) ++ (braceClose :: rest))) =
              ('\n' :: indentChars (2 * (lvl + 1))) ++
                ('"' :: ((k ++ ('"' :: (':' :: (' ' ::
                  (serJson (lvl + 1) v ++ serObjTail (lvl + 1) fs))))) ++
                  ('\n' :: (indentChars (2 * lvl) ++ (braceClose :: rest)))))
              from by simp]
            rw [skipWs_all_ws _ (nlIndent_ws _), skipWs_not_ws '"' _ (by decide)]
          rw [hskip]
          split
          · rename_i heq
            exact absurd heq (by simp)
          · rename_i bc r heq
            injection heq with ha hb
            rw [if_neg (by rw [← ha]; decide)]
            rw [ih3 (lvl + 1) k v fs (2 * lvl) rest hk hv hfs (by omega)]
    · intro lvl x xs m rest hwx hwxs hlen
      cases xs with
      | nil =>
        rw [serArrItems_len_nil] at hlen
        rw [show serArrItems lvl x [] ++
          ('\n' :: (indentChars m ++ (']' :: rest))) =
          ('\n' :: indentChars (2 * lvl)) ++ (serJson lvl x ++
            ('\n' :: (indentChars m ++ (']' :: rest)))) from by
              rw [serArrItems_shape]; simp [serArrTail]]
        have h1 : parseValue f (('\n' :: indentChars (2 * lvl)) ++
            (serJson lvl x ++ ('\n' :: (indentChars m ++ (']' :: rest))))) =
            some (x, '\n' :: (indentChars m ++ (']' :: rest))) :=
          ih1 lvl x _ _ hwx (nlIndent_ws _) rfl (by omega)
        rw [paStep f _ _ x h1]
        have h4 : skipWs ('\n' :: (indentChars m ++ (']' :: rest))) =
            ']' :: rest := by
          rw [show ('\n' :: (indentChars m ++ (']' :: rest)) : List Char) =
            ('\n' :: indentChars m) ++ (']' :: rest) from rfl]
          rw [skipWs_all_ws _ (nlIndent_ws _), skipWs_not_ws ']' _ (by decide)]
        rw [h4]
        split
        · rename_i more heq
          injection heq with ha hb
          exact absurd ha (by decide)
        · rename_i more heq
          injection heq with ha hb
          rw [← hb]
        · rename_i h1a h2a
          exact absurd rfl (h2a rest)
      | cons y ys =>
        simp only [wfArr, Bool.and_eq_true] at hwxs
        obtain ⟨hwy, hwys⟩ := hwxs
        rw [serArrItems_len_cons] at hlen
        rw [show serArrItems lvl x (y :: ys) ++
          ('\n' :: (indentChars m ++ (']' :: rest))) =
          ('\n' :: indentChars (2 * lvl)) ++ (serJson lvl x ++
            (',' :: (serArrItems lvl y ys ++
              ('\n' :: (indentChars m ++ (']' :: rest)))))) from by
                rw [serArrItems_shape]; simp [serArrTail]]
        have h1 : parseValue f (('\n' :: indentChars (2 * lvl)) ++
            (serJson lvl x ++ (',' :: (serArrItems lvl y ys ++
              ('\n' :: (indentChars m ++ (']' :: rest))))))) =
            some (x, ',' :: (serArrItems lvl y ys ++
              ('\n' :: (indentChars m ++ (']' :: rest))))) :=
          ih1 lvl x _ _ hwx (nlIndent_ws _) rfl (by omega)
        rw [paStep f _ _ x h1]
        rw [skipWs_not_ws ',' _ (by decide)]
        split
        · rename_i more heq
          injection heq with ha hb
          subst hb
          rw [ih2 lvl y ys m rest hwy hwys (by omega)]
        · rename_i more heq
          injection heq with ha hb
          exact absurd ha (by decide)
        · rename_i h1a h2a
          exact absurd rfl (h1a _)
    · intro lvl k v fs m rest hk hv hfs hlen
      have hknq : ∀ c ∈ k, c ≠ '"' := by
        rw [List.all_eq_true] at hk
        intro c hc
        have h := hk c hc
        simp only [wfStrChar, Bool.and_eq_true, decide_eq_true_eq] at h
        exact h.1.1
      cases fs with
      | nil =>
        rw [serObjItems_len_nil] at hlen
        rw [show serObjItems lvl k v [] ++
          ('\n' :: (indentChars m ++ (braceClose :: rest))) =
          ('\n' :: indentChars (2 * lvl)) ++ ('"' :: (k ++ ('"' :: (':' ::
            (' ' :: (serJson lvl v ++
              ('\n' :: (indentChars m ++ (braceClose :: rest))))))))) from by
                rw [serObjItems_shape]; simp [serObjTail]]
        have h1 : skipWs (('\n' :: indentChars (2 * lvl)) ++
            ('"' :: (k ++ ('"' :: (':' :: (' ' :: (serJson lvl v ++
              ('\n' :: (indentChars m ++ (braceClose :: rest)))))))))) =
            '"' :: (k ++ ('"' :: (':' :: (' ' :: (serJson lvl v ++
              ('\n' :: (indentChars m ++ (braceClose :: rest)))))))) := by
          rw [skipWs_all_ws _ (nlIndent_ws _), skipWs_not_ws '"' _ (by decide)]
        have h2 : parseStringBody (k ++ ('"' :: (':' :: (' ' ::
            (serJson lvl v ++
              ('\n' :: (indentChars m ++ (braceClose :: rest)))))))) =
            some (k, ':' :: (' ' :: (serJson lvl v ++
              ('\n' :: (indentChars m ++ (braceClose :: rest)))))) :=
          parseStringBody_append k hknq _
        rw [poStep f _ _ _ _ h1 h2]
        rw [skipWs_not_ws ':' _ (by decide)]
        split
        · rename_i rest2 heq
          injection heq with ha hb
          subst hb
          have h3 : parseValue f (' ' :: (serJson lvl v ++
              ('\n' :: (indentChars m ++ (braceClose :: rest))))) =
              some (v, '\n' :: (indentChars m ++ (braceClose :: rest))) :=
            ih1 lvl v [' '] _ hv (by decide) rfl (by omega)
          rw [h3]
          dsimp only []
          have h4 : skipWs ('\n' :: (indentChars m ++ (braceClose :: rest))) =
              braceClose :: rest := by
            rw [show ('\n' :: (indentChars m ++ (braceClose :: rest)) :
              List Char) = ('\n' :: indentChars m) ++ (braceClose :: rest)
              from rfl]
            rw [skipWs_all_ws _ (nlIndent_ws _),
              skipWs_not_ws braceClose _ (by decide)]
          rw [h4]
          split
          · rename_i more heq2
            injection heq2 with ha2 hb2
            exact absurd ha2 (by decide)
          · rename_i bc more heq2
            injection heq2 with ha2 hb2
            rw [if_pos ha2.symm, ← hb2]
          · rename_i heq2
            exact absurd heq2 (by simp)
        · rename_i x hne
          exact absurd rfl (hne _)
      | cons f2 gs =>
        obtain ⟨k2, v2⟩ := f2
        simp only [wfObj, Bool.and_eq_true] at hfs
        obtain ⟨⟨hk2, hv2⟩, hgs⟩ := hfs
        rw [serObjItems_len_cons] at hlen
        rw [show serObjItems lvl k v ((k2, v2) :: gs) ++
          ('\n' :: (indentChars m ++ (braceClose :: rest))) =
          ('\n' :: indentChars (2 * lvl)) ++ ('"' :: (k ++ ('"' :: (':' ::
            (' ' :: (serJson lvl v ++ (',' :: (serObjItems lvl k2 v2 gs ++
              ('\n' :: (indentChars m ++ (braceClose :: rest))))))))))) from by
                rw [serObjItems_shape]; simp [serObjTail]]
        have h1 : skipWs (('\n' :: indentChars (2 * lvl)) ++
            ('"' :: (k ++ ('"' :: (':' :: (' ' :: (serJson lvl v ++
              (',' :: (serObjItems lvl k2 v2 gs ++
                ('\n' :: (indentChars m ++ (braceClose :: rest)))))))))))) =
            '"' :: (k ++ ('"' :: (':' :: (' ' :: (serJson lvl v ++
              (',' :: (serObjItems lvl k2 v2 gs ++
                ('\n' :: (indentChars m ++ (braceClose :: rest)))))))))) := by
          rw [skipWs_all_ws _ (nlIndent_ws _), skipWs_not_ws '"' _ (by decide)]
        have h2 : parseStringBody (k ++ ('"' :: (':' :: (' ' ::
            (serJson lvl v ++ (',' :: (serObjItems lvl k2 v2 gs ++
              ('\n' :: (indentChars m ++ (braceClose :: rest)))))))))) =
            some (k, ':' :: (' ' :: (serJson lvl v ++
              (',' :: (serObjItems lvl k2 v2 gs ++
                ('\n' :: (indentChars m ++ (braceClose :: rest)))))))) :=
          parseStringBody_append k hknq _
        rw [poStep f _ _ _ _ h1 h2]
        rw [skipWs_not_ws ':' _ (by decide)]
        split
        · rename_i rest2 heq
          injection heq with ha hb
          subst hb
          have h3 : parseValue f (' ' :: (serJson lvl v ++
              (',' :: (serObjItems lvl k2 v2 gs ++
                ('\n' :: (indentChars m ++ (braceClose :: rest))))))) =
              some (v, ',' :: (serObjItems lvl k2 v2 gs ++
                ('\n' :: (indentChars m ++ (braceClose :: rest))))) :=
            ih1 lvl v [' '] _ hv (by decide) rfl (by omega)
          rw [h3]
          dsimp only []
          rw [skipWs_not_ws ',' _ (by decide)]
          split
          · rename_i more heq2
            injection heq2 with ha2 hb2
            subst hb2
            rw [ih3 lvl k2 v2 gs m rest hk2 hv2 hgs (by omega)]
          · rename_i bc more hno heq2
            injection heq2 with ha2 hb2
            exact absurd ha2.symm hno
          · rename_i heq2
            exact absurd heq2 (by simp)
        · rename_i x hne
          exact absurd rfl (hne _)

/-- Parsing inverts serialization for every well-formed document. -/
theorem loads_dumps (j : Json) (hwf : wfJson j = true) :
    loads (dumps j) = some j := by
  simp only [loads, dumps]
  have h := (parse_ser_all ((serJson 0 j).length + 1)).1 0 j [] [] hwf rfl rfl
    (by omega)
  rw [List.nil_append, List.append_nil] at h
  rw [h]
  rfl

/-- Claim C9: saving a well-formed state document, loading it back, and saving
the loaded document again leaves the state file (and the whole file
system) unchanged: `save(load(save(s))) == save(s)`, with every field of
the document — set or default — round-tripping exactly. -/
theorem save_load_save_roundtrip (fs : String → FileContent) (path : String)
    (s : Json) (hwf : wfJson s = true) :
    ∃ s' : Json, load_state (save_state fs path s) path = some s' ∧
      save_state (save_state fs path s) path s' = save_state fs path s := by
  refine ⟨s, ?_, ?_⟩
  · simp only [load_state, save_state, if_pos rfl]
    exact loads_dumps s hwf
  · funext q
    simp only [save_state]
    by_cases h : q = path
    · simp [h]
    · simp [h]

/-- Witness: the round trip at a concrete file system, path and
document. -/
theorem save_load_save_roundtrip_witness :
    wfJson Json.jnull = true ∧
    (∃ s' : Json,
      load_state (save_state (fun _ => FileContent.missing) "state.json"
        Json.jnull) "state.json" = some s' ∧
      save_state (save_state (fun _ => FileContent.missing) "state.json"
        Json.jnull) "state.json" s' =
        save_state (fun _ => FileContent.missing) "state.json" Json.jnull) :=
  ⟨by simp [wfJson],
    save_load_save_roundtrip (fun _ => FileContent.missing) "state.json"
      Json.jnull (by simp [wfJson])⟩

end Automaton